import Mathlib

/-!
# Verification of the Oran.js embedded document store

A shallow embedding, in Lean 4, of the document-storage subsystem of the
Oran.js framework (`JSONStorageEngine`, `MemoryStorageEngine`, the shared
LRU cache of `StorageEngine`, the index maintenance code and the query
filter evaluators), together with theorems settling the frozen claims
about that subsystem.

Conventions of the embedding:
* JavaScript values reachable by the store are modelled by `Oran.Value`
  (JSON scalars plus arrays plus `undefined`).  Nested plain objects inside
  records are not modelled; no claim depends on them.
* A record / plain object is an insertion-ordered association list
  `List (String × Value)`; `{...a, ...b}` spread-merge, key lookup and the
  rest-destructuring used by `compact`/`backup` are given as list functions.
* `Date.now()` / `new Date().toISOString()` are modelled by a logical clock
  threaded through the engine state; each call to `nowISO` ticks the clock
  and yields the string form of the tick.
* `crypto.randomBytes(len).toString('hex')` (the `uid` helper) is modelled
  by a fresh-name supply (`nextUid`), which renders the only property the
  code relies on: a fresh id differs from every id already present.
* Persistent files are explicit fields of the engine state: the snapshot
  file is `Option (List Record)` (absent or parsed content) and the WAL
  file is a list of parsed `{type, data}` entries.
* Asynchronous methods never interleave inside one operation (the source
  runs each storage operation to completion between suspension points), so
  each method is a pure state transformer; a `throw` is an `Except.error`
  result paired with the state at the moment of the throw.
-/

namespace Oran

/-- JavaScript values stored in records and used in query filters: the
JSON scalars, arrays, and `undefined` (the result of reading an absent
property). -/
inductive Value where
  | null
  | undefined
  | bool (b : Bool)
  | num (n : Int)
  | str (s : String)
  | arr (xs : List Value)
  deriving Repr

mutual

/-- Structural (decidable) equality on `Value`, used for the model's own
bookkeeping (map keys, statement of set equalities). -/
def Value.beq : Value → Value → Bool
  | .null, .null => true
  | .undefined, .undefined => true
  | .bool a, .bool b => a == b
  | .num a, .num b => a == b
  | .str a, .str b => a == b
  | .arr a, .arr b => Value.beqList a b
  | _, _ => false

def Value.beqList : List Value → List Value → Bool
  | [], [] => true
  | a :: as, b :: bs => Value.beq a b && Value.beqList as bs
  | _, _ => false

end

mutual

theorem Value.beq_iff : ∀ a b : Value, Value.beq a b = true ↔ a = b
  | .null, .null => by simp [Value.beq]
  | .undefined, .undefined => by simp [Value.beq]
  | .bool a, .bool b => by simp [Value.beq]
  | .num a, .num b => by simp [Value.beq]
  | .str a, .str b => by simp [Value.beq]
  | .arr a, .arr b => by
      simp only [Value.beq, Value.beqList_iff a b]
      constructor
      · intro h; rw [h]
      · intro h; injection h
  | .null, .undefined => by simp [Value.beq]
  | .null, .bool b => by simp [Value.beq]
  | .null, .num b => by simp [Value.beq]
  | .null, .str b => by simp [Value.beq]
  | .null, .arr b => by simp [Value.beq]
  | .undefined, .null => by simp [Value.beq]
  | .undefined, .bool b => by simp [Value.beq]
  | .undefined, .num b => by simp [Value.beq]
  | .undefined, .str b => by simp [Value.beq]
  | .undefined, .arr b => by simp [Value.beq]
  | .bool a, .null => by simp [Value.beq]
  | .bool a, .undefined => by simp [Value.beq]
  | .bool a, .num b => by simp [Value.beq]
  | .bool a, .str b => by simp [Value.beq]
  | .bool a, .arr b => by simp [Value.beq]
  | .num a, .null => by simp [Value.beq]
  | .num a, .undefined => by simp [Value.beq]
  | .num a, .bool b => by simp [Value.beq]
  | .num a, .str b => by simp [Value.beq]
  | .num a, .arr b => by simp [Value.beq]
  | .str a, .null => by simp [Value.beq]
  | .str a, .undefined => by simp [Value.beq]
  | .str a, .bool b => by simp [Value.beq]
  | .str a, .num b => by simp [Value.beq]
  | .str a, .arr b => by simp [Value.beq]
  | .arr a, .null => by simp [Value.beq]
  | .arr a, .undefined => by simp [Value.beq]
  | .arr a, .bool b => by simp [Value.beq]
  | .arr a, .num b => by simp [Value.beq]
  | .arr a, .str b => by simp [Value.beq]

theorem Value.beqList_iff : ∀ a b : List Value, Value.beqList a b = true ↔ a = b
  | [], [] => by simp [Value.beqList]
  | a :: as, b :: bs => by
      simp only [Value.beqList, Bool.and_eq_true, Value.beq_iff a b,
        Value.beqList_iff as bs]
      constructor
      · rintro ⟨h1, h2⟩; rw [h1, h2]
      · intro h; injection h with h1 h2; exact ⟨h1, h2⟩
  | [], _ :: _ => by simp [Value.beqList]
  | _ :: _, [] => by simp [Value.beqList]

end

instance : DecidableEq Value := fun a b =>
  decidable_of_iff (Value.beq a b = true) (Value.beq_iff a b)

/-- A record (a JavaScript plain object) as an insertion-ordered
association list from property name to value. -/
abbrev Record := List (String × Value)

/-- Property read `r[k]`: the first binding of `k`, or `undefined` when the
property is absent. -/
def getField (r : Record) (k : String) : Value :=
  match r.find? (fun p => p.1 = k) with
  | some p => p.2
  | none => .undefined

/-- Property write `r[k] = v`: overwrite the key's binding in place when
present (JavaScript objects keep the original insertion position; their
keys are unique, so rebinding the first occurrence is that overwrite),
append otherwise. -/
def setField : Record → String → Value → Record
  | [], k, v => [(k, v)]
  | p :: r, k, v => if p.1 = k then (k, v) :: r else p :: setField r k v

/-- Object spread `{...a, ...b}`: `a`'s bindings in order, overridden by
`b`, with `b`'s new keys appended in `b`'s order. -/
def mergeRecords (a b : Record) : Record :=
  b.foldl (fun acc p => setField acc p.1 p.2) a

/-- Rest-destructuring `const {k, ...rest} = r` for one key: drop every
binding of `k`. -/
def removeField (r : Record) (k : String) : Record :=
  r.filter (fun p => p.1 ≠ k)

/-- JavaScript truthiness of a value (`if (v)`). -/
def truthy : Value → Bool
  | .null => false
  | .undefined => false
  | .bool b => b
  | .num n => n != 0
  | .str s => s ≠ ""
  | .arr _ => true

/-- JavaScript strict equality `===`.  Primitives compare by value.  Two
arrays are reference-equal only when they are the same object; every
`===` in the store compares a filter/argument value against a record
field, and those always live in different object graphs, so the arr/arr
case is `false` here. -/
def stricteq : Value → Value → Bool
  | .null, .null => true
  | .undefined, .undefined => true
  | .bool a, .bool b => a == b
  | .num a, .num b => a == b
  | .str a, .str b => a == b
  | _, _ => false

/-- `record._deleted` is truthy: the record is a tombstone. -/
def isDeleted (r : Record) : Bool := truthy (getField r "_deleted")

/-- `record.id`. -/
def idOf (r : Record) : Value := getField r "id"

/-- Modelled from JS semantics: `ToNumber` on the values the store can
hold, `none` standing for `NaN`.  Array coercion (via `ToPrimitive`) is
not modelled; no claim exercises relational operators on arrays. -/
def toNumber : Value → Option Int
  | .num n => some n
  | .bool b => some (if b then 1 else 0)
  | .null => some 0
  | .str s => if s = "" then some 0 else s.toInt?
  | .undefined => none
  | .arr _ => none

/-- Modelled from JS semantics: the abstract relational comparison behind
`<`, `>`, `<=`, `>=`.  Two strings compare lexicographically; otherwise
both sides coerce with `ToNumber`, and any `NaN` makes the comparison
undefined (`none`), so that every one of the four operators is false. -/
def jsCompare : Value → Value → Option Ordering
  | .str a, .str b => some (compare a b)
  | a, b =>
    match toNumber a, toNumber b with
    | some x, some y => some (compare x y)
    | _, _ => none

mutual

/-- Modelled from JS semantics: `String(v)` for the values the store can
hold (arrays stringify as their comma-joined elements). -/
def jsToString : Value → String
  | .null => "null"
  | .undefined => "undefined"
  | .bool b => if b then "true" else "false"
  | .num n => toString n
  | .str s => s
  | .arr xs => jsToStringList xs

def jsToStringList : List Value → String
  | [] => ""
  | [x] => jsToString x
  | x :: xs => jsToString x ++ "," ++ jsToStringList xs

end

/-- Modelled from JS semantics: `new RegExp(pattern).test(target)` for the
metacharacter-free patterns a plain substring search decides; no claim
exercises regex metacharacters. -/
def regexTest (pattern target : Value) : Bool :=
  decide ((jsToString pattern).toList <:+: (jsToString target).toList)

/-- The operator keys the two `find` implementations recognize. -/
def recognizedOps : List String :=
  ["$eq", "$ne", "$gt", "$gte", "$lt", "$lte", "$in", "$nin", "$regex", "$exists"]

/-- One operator case of the `switch` shared by both `find`
implementations, applied to the record's field value `fv` and the operator
argument `arg`.  Unrecognized operators yield `false` here; each engine's
evaluator decides separately what an unrecognized key does to the loop. -/
def evalOp (op : String) (fv arg : Value) : Bool :=
  if op = "$eq" then stricteq fv arg
  else if op = "$ne" then !stricteq fv arg
  else if op = "$gt" then jsCompare fv arg == some .gt
  else if op = "$gte" then jsCompare fv arg == some .gt || jsCompare fv arg == some .eq
  else if op = "$lt" then jsCompare fv arg == some .lt
  else if op = "$lte" then jsCompare fv arg == some .lt || jsCompare fv arg == some .eq
  else if op = "$in" then
    match arg with
    | .arr xs => xs.any (fun x => stricteq x fv)
    | _ => false
  else if op = "$nin" then
    match arg with
    | .arr xs => !xs.any (fun x => stricteq x fv)
    | _ => false
  else if op = "$regex" then regexTest arg fv
  else if op = "$exists" then stricteq (.bool !(fv == .undefined)) arg
  else false

/-- A filter entry's value: either a bare literal (the
`typeof value !== 'object' || value === null` branch of both `find`s) or
an operator object (its `Object.entries`, in insertion order).  An array
literal would take the operator branch in the source; `wellFormedFilter`
keeps `lit` to primitives so the tag matches the source's dispatch. -/
inductive FilterVal where
  | lit (v : Value)
  | ops (l : List (String × Value))
  deriving Repr, DecidableEq

/-- A query: `Object.entries` of the filter object, in insertion order. -/
abbrev Filter := List (String × FilterVal)

/-- `true` when the value is not an array (so a `lit` tag agrees with the
source's `typeof`-dispatch). -/
def primValue : Value → Bool
  | .arr _ => false
  | _ => true

/-- Well-formed filter: literals are primitives and every operator key is
recognized. -/
def wellFormedFilter (q : Filter) : Bool :=
  q.all (fun fv =>
    match fv.2 with
    | .lit w => primValue w
    | .ops l => l.all (fun oa => recognizedOps.contains oa.1))

/-- `field.startsWith('_')` — the internal-field test of both `find`
implementations (for the one-character pattern it is exactly "the first
character is an underscore"). -/
def underscored (k : String) : Bool :=
  match k.data with
  | [] => false
  | c :: _ => c = '_'

/-- The operator loop of `JSONStorageEngine.find`: each recognized case
`return`s immediately, so only the first recognized operator is ever
evaluated; if no key is recognized the loop falls through to
`return true`. -/
def jsonEvalOps (fv : Value) : List (String × Value) → Bool
  | [] => true
  | (op, arg) :: rest =>
    if recognizedOps.contains op then evalOp op fv arg else jsonEvalOps fv rest

/-- One field predicate of `JSONStorageEngine.find`. -/
def jsonFieldPred (r : Record) (field : String) : FilterVal → Bool
  | .lit w => stricteq (getField r field) w
  | .ops l => jsonEvalOps (getField r field) l

/-- `JSONStorageEngine.find`: drop tombstones, then filter successively by
each non-underscore field of the query. -/
def jsonFind (data : List Record) (q : Filter) : List Record :=
  q.foldl
    (fun res fv =>
      if underscored fv.1 then res
      else res.filter (fun r => jsonFieldPred r fv.1 fv.2))
    (data.filter (fun r => !isDeleted r))

/-- The operator loop of `MemoryStorageEngine.find`: `opMatch` starts
`false`, a recognized operator overwrites it, an unrecognized key leaves
it unchanged, and a false `opMatch` after any iteration fails the
record. -/
def memEvalOps (fv : Value) (opMatch : Bool) : List (String × Value) → Bool
  | [] => true
  | (op, arg) :: rest =>
    let m := if recognizedOps.contains op then evalOp op fv arg else opMatch
    if m then memEvalOps fv m rest else false

/-- One field predicate of `MemoryStorageEngine.find`. -/
def memFieldPred (r : Record) (field : String) : FilterVal → Bool
  | .lit w => stricteq (getField r field) w
  | .ops l => memEvalOps (getField r field) false l

/-- The per-record match of `MemoryStorageEngine.find` over the query's
fields (underscore-prefixed fields are skipped). -/
def memRecordMatches (r : Record) (q : Filter) : Bool :=
  q.all (fun fv => underscored fv.1 || memFieldPred r fv.1 fv.2)

/-- `MemoryStorageEngine.find`: iterate the id→record map in insertion
order, skip tombstones, keep the records matching every field. -/
def memFind (data : List (Value × Record)) (q : Filter) : List Record :=
  (data.map Prod.snd).filter (fun r => !isDeleted r && memRecordMatches r q)

/-- The field constraint of spec §4.1, stated from the spec's words: a
bare literal is shorthand for `$eq`, and an operator object is the
conjunction of **all** of its operators. -/
def specFieldHolds (r : Record) (field : String) : FilterVal → Bool
  | .lit w => evalOp "$eq" (getField r field) w
  | .ops l => l.all (fun oa => evalOp oa.1 (getField r field) oa.2)

/-- The whole-filter contract of spec §4.1, stated from the spec's words:
logical AND across the non-internal fields of the filter. -/
def specMatches (r : Record) (q : Filter) : Bool :=
  q.all (fun fv => underscored fv.1 || specFieldHolds r fv.1 fv.2)

/-! ## The shared LRU cache (`StorageEngine`)

`this.cache` is a JavaScript `Map`, modelled as an association list whose
head is the oldest (first-inserted) entry.  `Map` keys compare with
SameValueZero, which coincides with structural equality on the primitive
ids the store uses. -/

/-- The cache: insertion-ordered id→record entries, oldest first. -/
abbrev Cache := List (Value × Record)

/-- `Map.prototype.get`. -/
def mapLookup (c : List (Value × Record)) (id : Value) : Option Record :=
  match c.find? (fun p => p.1 = id) with
  | some p => some p.2
  | none => none

/-- `Map.prototype.set`: overwrite the key's entry in place when present
(keeping its insertion position; `Map` keys are unique), append
otherwise. -/
def mapSet : List (Value × Record) → Value → Record → List (Value × Record)
  | [], id, r => [(id, r)]
  | p :: c, id, r => if p.1 = id then (id, r) :: c else p :: mapSet c id r

/-- `Map.prototype.delete`. -/
def mapDelete (c : List (Value × Record)) (id : Value) : List (Value × Record) :=
  c.filter (fun p => p.1 ≠ id)

/-- `StorageEngine.getFromCache`: on a hit, delete and re-insert the entry
(promoting it to most-recently-used) and return it; on a miss return
null. -/
def getFromCache (c : Cache) (id : Value) : Option Record × Cache :=
  match mapLookup c id with
  | some item => (some item, mapDelete c id ++ [(id, item)])
  | none => (none, c)

/-- `StorageEngine.setToCache`: when the cache is at (or above) capacity,
delete the entry under `this.cache.keys().next().value` — the oldest
key — then `Map.set` the new pair. -/
def setToCache (cacheSize : Nat) (c : Cache) (id : Value) (r : Record) : Cache :=
  let c1 := if c.length ≥ cacheSize then c.drop 1 else c
  mapSet c1 id r

/-! ## `JSONStorageEngine` -/

/-- A parsed WAL line `{type, data}`; `data` is the full record for
`insert`/`update` and the object `{id}` for `delete`. -/
inductive WalEntry where
  | ins (data : Record)
  | upd (data : Record)
  | del (data : Record)
  deriving Repr, DecidableEq

/-- The state of one `JSONStorageEngine` instance plus its two files.
`dataFile` is the parsed snapshot (`none` when the file does not exist),
`walFile` the parsed WAL lines.  `clock` backs `nowISO`, `nextUid` backs
`uid`; an index is kept as the relation {(value, id)} its value→id-set
`Map` denotes (the engine prunes empty id-sets, so the two presentations
coincide). -/
structure JState where
  data : List Record
  indexes : List (String × Finset (Value × Value))
  cache : Cache
  cacheSize : Nat
  dataFile : Option (List Record)
  walFile : List WalEntry
  clock : Nat
  nextUid : Nat

/-- A freshly constructed engine over an empty data directory. -/
def freshJState : JState :=
  { data := [], indexes := [], cache := [], cacheSize := 1000,
    dataFile := none, walFile := [], clock := 0, nextUid := 0 }

/-- `nowISO()`: one tick of the logical clock, rendered as a string. -/
def JState.nowISO (s : JState) : Value × JState :=
  (.str (toString s.clock), { s with clock := s.clock + 1 })

/-- `uid()`: a fresh identifier from the supply. -/
def JState.uid (s : JState) : Value × JState :=
  (.str ("uid-" ++ toString s.nextUid), { s with nextUid := s.nextUid + 1 })

/-- `writeToWAL(operation)`: append one line to the WAL file. -/
def writeToWAL (s : JState) (e : WalEntry) : JState :=
  { s with walFile := s.walFile ++ [e] }

/-- `saveData()`: write the full in-memory array to the snapshot file. -/
def saveData (s : JState) : JState :=
  { s with dataFile := some s.data }

/-- The contribution of one record to the index relation on `field`, as
`rebuildIndex` derives it: tombstones contribute nothing, and so does a
record whose `field` is `undefined`. -/
def contrib (field : String) (r : Record) : List (Value × Value) :=
  if isDeleted r then []
  else if getField r field = .undefined then []
  else [(getField r field, idOf r)]

/-- `rebuildIndex(field)`: clear, then re-derive the whole relation from
the record array. -/
def rebuildRel (data : List Record) (field : String) : Finset (Value × Value) :=
  (data.foldr (fun r acc => contrib field r ++ acc) []).toFinset

/-- The body of `insert`'s index loop: if the new record has a value for
the field, add its id under that value (no tombstone check). -/
def insertIndexStep (field : String) (r : Record) (idx : Finset (Value × Value)) :
    Finset (Value × Value) :=
  if getField r field = .undefined then idx
  else insert (getField r field, idOf r) idx

/-- The body of `update`'s index loop: when the field's value changed,
remove the id from the old value's set (pruning an emptied set) and add
it under the new value.  The source compares with `!==`; the spread-merge
preserves object references, so an unchanged field compares equal, which
structural equality renders. -/
def updateIndexStep (field : String) (existing updated : Record) (id : Value)
    (idx : Finset (Value × Value)) : Finset (Value × Value) :=
  if getField existing field = getField updated field then idx
  else
    let idx1 :=
      if getField existing field = .undefined then idx
      else idx.erase (getField existing field, id)
    if getField updated field = .undefined then idx1
    else insert (getField updated field, id) idx1

/-- The body of `delete`'s index loop: remove the id from the deleted
record's value set (pruning an emptied set). -/
def deleteIndexStep (field : String) (existing : Record) (id : Value)
    (idx : Finset (Value × Value)) : Finset (Value × Value) :=
  if getField existing field = .undefined then idx
  else idx.erase (getField existing field, id)

/-- The scan `this.data.find(item => item.id === id && !item._deleted)`. -/
def liveLookup (data : List Record) (id : Value) : Option Record :=
  data.find? (fun r => stricteq (idOf r) id && !isDeleted r)

/-- `JSONStorageEngine.get`: cache hit short-circuits (and promotes);
otherwise scan for the first live record with the id and cache it. -/
def jsonGet (s : JState) (id : Value) : Option Record × JState :=
  match getFromCache s.cache id with
  | (some cached, c') => (some cached, { s with cache := c' })
  | (none, _) =>
    match liveLookup s.data id with
    | some record =>
      (some record, { s with cache := setToCache s.cacheSize s.cache id record })
    | none => (none, s)

/-- Steps 1–2 of `JSONStorageEngine.insert`: assign an id when `data.id`
is falsy, then stamp `_created` and `_updated` with one `nowISO()`
value. -/
def stampForInsert (s : JState) (payload : Record) : Record × JState :=
  let (d1, s1) :=
    if truthy (getField payload "id") then (payload, s)
    else
      let (v, s') := s.uid
      (setField payload "id" v, s')
  let (t, s2) := s1.nowISO
  (setField (setField d1 "_created" t) "_updated" t, s2)

/-- `JSONStorageEngine.insert` up to and including its WAL append (the
point at which claim C1's crash happens). -/
def jsonInsertWal (s : JState) (payload : Record) : Record × JState :=
  let (d, s1) := stampForInsert s payload
  (d, writeToWAL s1 (.ins d))

/-- `this.data.findIndex(item => item.id === id)` followed by
`this.data[index] = u` (no change when the id is absent). -/
def replaceFirstById (data : List Record) (id : Value) (u : Record) : List Record :=
  match data.findIdx? (fun r => stricteq (idOf r) id) with
  | some i => data.set i u
  | none => data

/-- `JSONStorageEngine.insert`: WAL append, push, index maintenance,
snapshot save, cache update; returns the stored record. -/
def jsonInsert (s : JState) (payload : Record) : Record × JState :=
  let (d, s1) := jsonInsertWal s payload
  let s2 := { s1 with data := s1.data ++ [d] }
  let s3 := { s2 with
    indexes := s2.indexes.map (fun fi => (fi.1, insertIndexStep fi.1 d fi.2)) }
  let s4 := saveData s3
  (d, { s4 with cache := setToCache s4.cacheSize s4.cache (getField d "id") d })

/-- `JSONStorageEngine.update` up to and including its WAL append:
`get`, not-found check, merge `{...existing, ...data, _updated}`.  Returns
the pair (existing, updated) on success. -/
def jsonUpdateWal (s : JState) (id : Value) (payload : Record) :
    Except String (Record × Record) × JState :=
  match jsonGet s id with
  | (none, s1) => (.error "Record not found", s1)
  | (some existing, s1) =>
    let (t, s2) := s1.nowISO
    let updatedData := setField (mergeRecords existing payload) "_updated" t
    (.ok (existing, updatedData), writeToWAL s2 (.upd updatedData))

/-- `JSONStorageEngine.update`: not-found throws; otherwise WAL append,
replace in the array, per-index delta maintenance, snapshot save, cache
update; returns the merged record. -/
def jsonUpdate (s : JState) (id : Value) (payload : Record) :
    Except String Record × JState :=
  match jsonUpdateWal s id payload with
  | (.error e, s1) => (.error e, s1)
  | (.ok (existing, updatedData), s1) =>
    let s2 := { s1 with data := replaceFirstById s1.data id updatedData }
    let s3 := { s2 with
      indexes := s2.indexes.map
        (fun fi => (fi.1, updateIndexStep fi.1 existing updatedData id fi.2)) }
    let s4 := saveData s3
    (.ok updatedData,
      { s4 with cache := setToCache s4.cacheSize s4.cache id updatedData })

/-- `JSONStorageEngine.delete` up to and including its WAL append: `get`,
not-found check, `{type: 'delete', data: {id}}` line. -/
def jsonDeleteWal (s : JState) (id : Value) : Except String Record × JState :=
  match jsonGet s id with
  | (none, s1) => (.error "Record not found", s1)
  | (some existing, s1) => (.ok existing, writeToWAL s1 (.del [("id", id)]))

/-- `JSONStorageEngine.delete`: not-found throws; otherwise WAL append,
mark `_deleted`/`_deleted_at` in place (soft delete), per-index removal,
snapshot save, cache eviction; returns `true`. -/
def jsonDelete (s : JState) (id : Value) : Except String Bool × JState :=
  match jsonDeleteWal s id with
  | (.error e, s1) => (.error e, s1)
  | (.ok existing, s1) =>
    let (t, s2) := s1.nowISO
    let marked := setField (setField existing "_deleted" (.bool true)) "_deleted_at" t
    let s3 := { s2 with data := replaceFirstById s2.data id marked }
    let s4 := { s3 with
      indexes := s3.indexes.map
        (fun fi => (fi.1, deleteIndexStep fi.1 existing id fi.2)) }
    let s5 := saveData s4
    (.ok true, { s5 with cache := mapDelete s5.cache id })

/-- `JSONStorageEngine.rebuildIndex(field)`: a no-op when the index is not
registered, else a full re-derivation. -/
def jsonRebuildIndex (s : JState) (field : String) : JState :=
  { s with
    indexes := s.indexes.map
      (fun fi => if fi.1 = field then (fi.1, rebuildRel s.data fi.1) else fi) }

/-- `JSONStorageEngine.createIndex(field)`: no-op when present, else
allocate empty and rebuild from the existing data. -/
def jsonCreateIndex (s : JState) (field : String) : JState :=
  if s.indexes.any (fun fi => fi.1 = field) then s
  else jsonRebuildIndex { s with indexes := s.indexes ++ [(field, ∅)] } field

/-- `JSONStorageEngine.dropIndex(field)`. -/
def jsonDropIndex (s : JState) (field : String) : JState :=
  { s with indexes := s.indexes.filter (fun fi => fi.1 ≠ field) }

/-- The record cleanup of `compact`:
`const { _created, _updated, ...cleanItem } = item`. -/
def stripCompact (r : Record) : Record :=
  removeField (removeField r "_created") "_updated"

/-- `JSONStorageEngine.compact`: keep only non-deleted records with
`_created`/`_updated` stripped, overwrite the snapshot, delete the WAL,
swap in the compacted array, clear the cache, rebuild every index. -/
def jsonCompact (s : JState) : Bool × JState :=
  let compactedData := (s.data.filter (fun r => !isDeleted r)).map stripCompact
  let s1 := { s with dataFile := some compactedData, walFile := [],
                     data := compactedData, cache := [] }
  (true,
    { s1 with
      indexes := s1.indexes.map (fun fi => (fi.1, rebuildRel compactedData fi.1)) })

/-- `JSONStorageEngine.backup`: a copy of the snapshot file plus, when a
WAL file exists, a copy of it; `copyFileSync` throws when the snapshot
file does not exist and the catch returns null. -/
def jsonBackup (s : JState) : Option (List Record × List WalEntry) × JState :=
  match s.dataFile with
  | none => (none, s)
  | some snap => (some (snap, s.walFile), s)

/-- `JSONStorageEngine.restore`: missing file throws (caught, `false`);
otherwise clear the data and the cache, load the backup wholesale, save
the snapshot, rebuild every index. -/
def jsonRestore (s : JState) (backup : Option (List Record)) : Bool × JState :=
  match backup with
  | none => (false, s)
  | some content =>
    let s1 := { s with data := content, cache := [] }
    let s2 := saveData s1
    (true,
      { s2 with
        indexes := s2.indexes.map (fun fi => (fi.1, rebuildRel content fi.1)) })

/-- `JSONStorageEngine.applyOperation`, the replay step of `init`:
`insert` pushes, `update` merges over the first id match re-stamping
`_updated`, `delete` removes every record with the id from the array
(hard removal, unlike the runtime soft delete). -/
def applyOperation (s : JState) : WalEntry → JState
  | .ins d => { s with data := s.data ++ [d] }
  | .upd d =>
    match s.data.findIdx? (fun r => stricteq (idOf r) (idOf d)) with
    | some i =>
      let (t, s1) := s.nowISO
      { s1 with
        data := s1.data.set i (setField (mergeRecords (s.data.getD i []) d) "_updated" t) }
    | none => s
  | .del d =>
    { s with data := s.data.filter (fun r => !stricteq (idOf r) (getField d "id")) }

/-- `JSONStorageEngine.init`: load the snapshot if the file exists, replay
every WAL line in file order through `applyOperation`, delete the WAL
file, rebuild every registered index.  The snapshot file is **not**
rewritten. -/
def jsonInit (s : JState) : JState :=
  let s1 :=
    match s.dataFile with
    | some content => { s with data := content }
    | none => s
  let s2 := s1.walFile.foldl applyOperation s1
  let s3 := { s2 with walFile := [] }
  { s3 with
    indexes := s3.indexes.map (fun fi => (fi.1, rebuildRel s3.data fi.1)) }

/-! ## `MemoryStorageEngine` -/

/-- The state of one `MemoryStorageEngine` instance: an insertion-ordered
id→record map plus the shared cache/index structures and the modelled
clock and id supply. -/
structure MState where
  data : List (Value × Record)
  indexes : List (String × Finset (Value × Value))
  cache : Cache
  cacheSize : Nat
  clock : Nat
  nextUid : Nat

/-- A freshly constructed memory engine. -/
def freshMState : MState :=
  { data := [], indexes := [], cache := [], cacheSize := 1000,
    clock := 0, nextUid := 0 }

/-- `nowISO()` for the memory engine. -/
def MState.nowISO (s : MState) : Value × MState :=
  (.str (toString s.clock), { s with clock := s.clock + 1 })

/-- `uid()` for the memory engine. -/
def MState.uid (s : MState) : Value × MState :=
  (.str ("uid-" ++ toString s.nextUid), { s with nextUid := s.nextUid + 1 })

/-- `MemoryStorageEngine.get`: cache hit short-circuits; otherwise
`this.data.get(id)`, returned (and cached) only when live. -/
def memGet (s : MState) (id : Value) : Option Record × MState :=
  match getFromCache s.cache id with
  | (some cached, c') => (some cached, { s with cache := c' })
  | (none, _) =>
    match mapLookup s.data id with
    | some record =>
      if !isDeleted record then
        (some record, { s with cache := setToCache s.cacheSize s.cache id record })
      else (none, s)
    | none => (none, s)

/-- `MemoryStorageEngine.insert`: id assignment, one `nowISO` stamp for
`_created`/`_updated`, `this.data.set(data.id, data)`, index maintenance,
cache update. -/
def memInsert (s : MState) (payload : Record) : Record × MState :=
  let (d1, s1) :=
    if truthy (getField payload "id") then (payload, s)
    else
      let (v, s') := s.uid
      (setField payload "id" v, s')
  let (t, s2) := s1.nowISO
  let d := setField (setField d1 "_created" t) "_updated" t
  let s3 : MState := { s2 with data := mapSet s2.data (getField d "id") d }
  let s4 : MState := { s3 with
    indexes := s3.indexes.map (fun fi => (fi.1, insertIndexStep fi.1 d fi.2)) }
  (d, { s4 with cache := setToCache s4.cacheSize s4.cache (getField d "id") d })

/-- `MemoryStorageEngine.update`: not-found throws; otherwise merge,
`this.data.set(id, updatedData)`, per-index delta maintenance, cache
update. -/
def memUpdate (s : MState) (id : Value) (payload : Record) :
    Except String Record × MState :=
  match memGet s id with
  | (none, s1) => (.error "Record not found", s1)
  | (some existing, s1) =>
    let (t, s2) := s1.nowISO
    let updatedData := setField (mergeRecords existing payload) "_updated" t
    let s3 : MState := { s2 with data := mapSet s2.data id updatedData }
    let s4 : MState := { s3 with
      indexes := s3.indexes.map
        (fun fi => (fi.1, updateIndexStep fi.1 existing updatedData id fi.2)) }
    (.ok updatedData,
      { s4 with cache := setToCache s4.cacheSize s4.cache id updatedData })

/-- `MemoryStorageEngine.delete`: not-found throws; otherwise mark the
record's `_deleted`/`_deleted_at` (the source mutates the object the map
holds; with a coherent cache that object is the map's entry, rendered
here by `mapSet`), per-index removal, cache eviction. -/
def memDelete (s : MState) (id : Value) : Except String Bool × MState :=
  match memGet s id with
  | (none, s1) => (.error "Record not found", s1)
  | (some existing, s1) =>
    let (t, s2) := s1.nowISO
    let marked := setField (setField existing "_deleted" (.bool true)) "_deleted_at" t
    let s3 : MState := { s2 with data := mapSet s2.data id marked }
    let s4 : MState := { s3 with
      indexes := s3.indexes.map
        (fun fi => (fi.1, deleteIndexStep fi.1 existing id fi.2)) }
    (.ok true, { s4 with cache := mapDelete s4.cache id })

/-- The record cleanup of the memory engine's `backup`/`compact`:
`const { _created, _updated, _deleted, _deleted_at, ...cleanRecord }`. -/
def stripSys (r : Record) : Record :=
  removeField (removeField (removeField (removeField r "_created") "_updated")
    "_deleted") "_deleted_at"

/-- `MemoryStorageEngine.backup`: the array written to the backup file —
the map's values in order, tombstones dropped, system fields stripped. -/
def memBackup (s : MState) : List Record :=
  ((s.data.map Prod.snd).filter (fun r => !isDeleted r)).map stripSys

/-- One loop iteration of `MemoryStorageEngine.restore`:
`const id = record.id || uid(); const now = nowISO();` then
`this.data.set(id, { ...record, id, _created: now, _updated: now })`. -/
def memRestoreStep (acc : MState) (r : Record) : MState :=
  let (idv, a1) :=
    if truthy (getField r "id") then (getField r "id", acc) else acc.uid
  let (t, a2) := a1.nowISO
  let fullRecord := setField (setField (setField r "id" idv) "_created" t) "_updated" t
  { a2 with data := mapSet a2.data idv fullRecord }

/-- `MemoryStorageEngine.restore`: missing file throws (caught, `false`);
otherwise clear the map and the cache, re-insert every backup record with
fresh `_created`/`_updated` stamps, rebuild every index. -/
def memRestore (s : MState) (backup : Option (List Record)) : Bool × MState :=
  match backup with
  | none => (false, s)
  | some records =>
    let s1 := { s with data := [], cache := [] }
    let s2 := records.foldl memRestoreStep s1
    (true,
      { s2 with
        indexes := s2.indexes.map
          (fun fi =>
            (fi.1,
              rebuildRel (s2.data.map Prod.snd) fi.1)) })

/-! ## Operation sequences over the JSON engine

Claims C3 and C10 quantify over sequences of API calls; `Op` is the
alphabet and `runOp` the (result-discarding) application. -/

/-- One API call against a `JSONStorageEngine`. -/
inductive Op where
  | opInsert (payload : Record)
  | opUpdate (id : Value) (payload : Record)
  | opDelete (id : Value)
  | opGet (id : Value)
  | opCreateIndex (field : String)
  | opDropIndex (field : String)
  | opCompact
  | opRestore (content : List Record)

/-- Apply one call, discarding its result. -/
def runOp (s : JState) : Op → JState
  | .opInsert p => (jsonInsert s p).2
  | .opUpdate id p => (jsonUpdate s id p).2
  | .opDelete id => (jsonDelete s id).2
  | .opGet id => (jsonGet s id).2
  | .opCreateIndex f => jsonCreateIndex s f
  | .opDropIndex f => jsonDropIndex s f
  | .opCompact => (jsonCompact s).2
  | .opRestore c => (jsonRestore s (some c)).2

/-- Apply a sequence of calls in order. -/
def runOps (s : JState) (ops : List Op) : JState := ops.foldl runOp s

/-- `true` when the value is a string (every id the store itself assigns
is one). -/
def isStr : Value → Bool
  | .str _ => true
  | _ => false

/-- Payload keys stay clear of the framework-managed underscore fields. -/
def wfPayloadKeys (p : Record) : Bool :=
  p.all (fun kv => !underscored kv.1)

/-- Well-formedness of one call in the current state: inserts carry an
explicit fresh string id and do not touch underscore fields; updates do
not touch `id` or underscore fields; restored content carries distinct
string ids.  These are exactly the data-model assumptions of spec §3
(caller data does not forge framework fields, ids are unique). -/
def wfOp (s : JState) : Op → Bool
  | .opInsert p =>
    wfPayloadKeys p && truthy (getField p "id") && isStr (getField p "id") &&
      s.data.all (fun r => !stricteq (idOf r) (getField p "id"))
  | .opUpdate _ p => wfPayloadKeys p && p.all (fun kv => kv.1 ≠ "id")
  | .opDelete _ => true
  | .opGet _ => true
  | .opCreateIndex _ => true
  | .opDropIndex _ => true
  | .opCompact => true
  | .opRestore c =>
    c.all (fun r => isStr (idOf r)) && decide ((c.map idOf).Nodup)

/-- Well-formedness of a whole sequence, checked along the trajectory. -/
def wfSeq (s : JState) : List Op → Bool
  | [] => true
  | o :: rest => wfOp s o && wfSeq (runOp s o) rest

/-! ## Crash scenario of claim C1

The process is killed after an operation's WAL append and before its
snapshot save; a new process then constructs a fresh engine over the
surviving files and runs `init`.  The wall clock and the entropy pool
survive the crash, so `clock` and `nextUid` carry over. -/

/-- Re-initialization after a kill: a fresh engine instance over the
surviving `dataFile`/`walFile`. -/
def reinitAfterKill (s : JState) : JState :=
  jsonInit
    { freshJState with
      cacheSize := s.cacheSize, dataFile := s.dataFile,
      walFile := s.walFile, clock := s.clock, nextUid := s.nextUid }

/-- One operation of the crash scenario: run the call up to and including
its WAL append (`jsonInsertWal`/`jsonUpdateWal`/`jsonDeleteWal` are
literal prefixes of the full calls), kill, re-initialize.  The
non-mutating calls append nothing and are run normally. -/
def crashStep (s : JState) : Op → JState
  | .opInsert p => reinitAfterKill (jsonInsertWal s p).2
  | .opUpdate id p => reinitAfterKill (jsonUpdateWal s id p).2
  | .opDelete id => reinitAfterKill (jsonDeleteWal s id).2
  | o => runOp s o

/-- The interrupted run of claim C1 over a fresh collection. -/
def crashRun (ops : List Op) : JState :=
  ops.foldl crashStep (jsonInit freshJState)

/-- The uninterrupted run over a fresh collection. -/
def normalRun (ops : List Op) : JState :=
  ops.foldl runOp (jsonInit freshJState)

/-- The live (non-tombstoned) records of an array. -/
def liveRecords (data : List Record) : List Record :=
  data.filter (fun r => !isDeleted r)

/-- The ids of the live records. -/
def liveIds (s : JState) : List Value :=
  (liveRecords s.data).map idOf

/-! ## Claim-side predicates -/

/-- The invariant claim C10 states: every cache entry maps an id to
exactly the current live record with that id. -/
def cacheCoherent (s : JState) : Prop :=
  ∀ p ∈ s.cache, liveLookup s.data p.1 = some p.2

/-- The data-model invariant of spec §3: ids are pairwise distinct across
the record array (tombstones included). -/
def uniqueIds (data : List Record) : Prop :=
  (data.map idOf).Nodup ∧ ∀ r ∈ data, isStr (idOf r) = true

/-- The engine-state invariant claims C3 and C10 revolve around:
string-valued pairwise-distinct ids, a coherent cache, and every
registered index equal to its from-scratch rebuild. -/
structure Inv (s : JState) : Prop where
  strIds : ∀ r ∈ s.data, isStr (idOf r) = true
  nd : (s.data.map idOf).Nodup
  coh : ∀ p ∈ s.cache, liveLookup s.data p.1 = some p.2
  idx : ∀ fi ∈ s.indexes, fi.2 = rebuildRel s.data fi.1
  cacheNd : (s.cache.map Prod.fst).Nodup

/-! ## Concrete fixtures used by witnesses and counterexamples -/

/-- `{id: "a", x: 1}`. -/
def recA : Record := [("id", .str "a"), ("x", .num 1)]

/-- `{id: "b", x: 2}`. -/
def recB : Record := [("id", .str "b"), ("x", .num 2)]

/-- The record of spec §8.5: `{age: 30, tags: ["a","b"]}` (with an id so
the engines can store it). -/
def recAge : Record :=
  [("id", .str "r"), ("age", .num 30), ("tags", .arr [.str "a", .str "b"])]

/-- The filter of spec §8.5:
`{age: {$gte: 18, $lt: 65}, tags: {$in: ["b","c"]}}`. -/
def qFull : Filter :=
  [("age", .ops [("$gte", .num 18), ("$lt", .num 65)]),
   ("tags", .ops [("$in", .arr [.str "b", .str "c"])])]

/-- `{age: {$gte: 18, $lt: 65}}`. -/
def qAge : Filter := [("age", .ops [("$gte", .num 18), ("$lt", .num 65)])]

/-- `{age: {$gt: 30}}`. -/
def qGt30 : Filter := [("age", .ops [("$gt", .num 30)])]

/-- `{age: {$gte: 18, $lt: 20}}`: 30 satisfies the first operator and
violates the second. -/
def qFirstOp : Filter := [("age", .ops [("$gte", .num 18), ("$lt", .num 20)])]

/-- `{age: {$unknown: 1}}`: an unrecognized operator key. -/
def qBad : Filter := [("age", .ops [("$unknown", .num 1)])]

/-- The two-insert sequence of claim C1's failing input. -/
def c1ops : List Op := [.opInsert recA, .opInsert recB]

/-- Claim C3's failing sequence: create an index on `f`, then insert a
payload that smuggles a truthy `_deleted` tombstone flag in. -/
def c3ops : List Op :=
  [.opCreateIndex "f",
   .opInsert [("id", .str "a"), ("f", .num 1), ("_deleted", .bool true)]]

/-- A well-formed sequence exercising an index: create an index on `f`,
insert two records, move one, delete the other. -/
def wfFixtureOps : List Op :=
  [.opCreateIndex "f",
   .opInsert [("id", .str "a"), ("f", .num 1)],
   .opInsert [("id", .str "b"), ("f", .num 1)],
   .opUpdate (.str "a") [("f", .num 2)],
   .opDelete (.str "b")]

/-- Claims C5/C10's failing sequence: an update whose payload rebinds
`id`. -/
def c10ops : List Op :=
  [.opInsert recA, .opUpdate (.str "a") [("id", .str "b")]]

/-- The engine state after inserting `recA` into a fresh JSON engine. -/
def jAfterA : JState := (jsonInsert freshJState recA).2

/-- The engine state after inserting `recA` then `recB`. -/
def jAfterAB : JState := (jsonInsert jAfterA recB).2

/-- The memory engine state after inserting `recA`. -/
def mAfterA : MState := (memInsert freshMState recA).2

/-- A capacity-1 cache holding the single entry `"a"`. -/
def c8small : Cache := setToCache 1 [] (.str "a") [("v", .num 1)]

/-- The backup array written by the memory engine after inserting
`recA`. -/
def c9backup : List Record := memBackup mAfterA

/-- The memory engine after the collection has been emptied
(`delete "a"`) and then restored from `c9backup`. -/
def c9restored : MState :=
  (memRestore (memDelete mAfterA (.str "a")).2 (some c9backup)).2

/-! ## Record algebra -/

@[simp]
theorem getField_nil (k : String) : getField [] k = .undefined := rfl

theorem getField_cons (p : String × Value) (r : Record) (k : String) :
    getField (p :: r) k = if p.1 = k then p.2 else getField r k := by
  by_cases h : p.1 = k <;> simp [getField, List.find?, h]

theorem getField_setField_self (r : Record) (k : String) (v : Value) :
    getField (setField r k v) k = v := by
  induction r with
  | nil => simp [setField, getField_cons]
  | cons a as ih =>
    by_cases h : a.1 = k <;> simp [setField, h, getField_cons, ih]

theorem getField_setField_ne (r : Record) (k k' : String) (v : Value) (h : k' ≠ k) :
    getField (setField r k v) k' = getField r k' := by
  induction r with
  | nil => simp [setField, getField_cons, Ne.symm h]
  | cons a as ih =>
    by_cases hak : a.1 = k
    · simp [setField, hak, getField_cons, Ne.symm h]
    · simp [setField, hak, getField_cons, ih]

theorem getField_removeField_ne (r : Record) (k k' : String) (h : k' ≠ k) :
    getField (removeField r k) k' = getField r k' := by
  induction r with
  | nil => simp [removeField]
  | cons a as ih =>
    simp only [removeField, List.filter_cons, ne_eq, decide_not] at ih ⊢
    by_cases hak : a.1 = k
    · have hne : a.1 ≠ k' := by rw [hak]; exact fun hh => h hh.symm
      rw [show (!decide (a.1 = k)) = false by simp [hak]]
      simp only [Bool.false_eq_true, if_false]
      rw [getField_cons, if_neg hne]
      exact ih
    · rw [show (!decide (a.1 = k)) = true by simp [hak]]
      simp only [if_true]
      rw [getField_cons, getField_cons]
      by_cases hk' : a.1 = k'
      · rw [if_pos hk', if_pos hk']
      · rw [if_neg hk', if_neg hk']
        exact ih

theorem getField_mergeRecords_not_key (a : Record) (b : Record) (k : String)
    (h : ∀ kv ∈ b, kv.1 ≠ k) :
    getField (mergeRecords a b) k = getField a k := by
  unfold mergeRecords
  induction b generalizing a with
  | nil => rfl
  | cons x xs ih =>
    simp only [List.foldl_cons]
    rw [ih (setField a x.1 x.2) (fun kv hkv => h kv (List.mem_cons_of_mem x hkv))]
    exact getField_setField_ne a x.1 k x.2 (fun hh => h x (List.mem_cons_self x xs) hh.symm)

theorem idOf_mergeRecords (a : Record) (b : Record) (h : ∀ kv ∈ b, kv.1 ≠ "id") :
    idOf (mergeRecords a b) = idOf a :=
  getField_mergeRecords_not_key a b "id" h

/-! ## Map, cache and lookup lemmas -/

theorem mapLookup_some_mem (c : List (Value × Record)) (id : Value) (v : Record)
    (h : mapLookup c id = some v) : (id, v) ∈ c := by
  unfold mapLookup at h
  cases hf : c.find? (fun p => p.1 = id) with
  | none => rw [hf] at h; cases h
  | some p =>
    rw [hf] at h
    injection h with h2
    have hm := List.mem_of_find?_eq_some hf
    have hp : p.1 = id := by simpa using List.find?_some hf
    obtain ⟨p1, p2⟩ := p
    cases hp
    cases h2
    exact hm

theorem mem_mapSet (c : List (Value × Record)) (id : Value) (r : Record)
    (q : Value × Record) (h : q ∈ mapSet c id r) : q = (id, r) ∨ q ∈ c := by
  induction c with
  | nil => simpa [mapSet] using h
  | cons a as ih =>
    by_cases ha : a.1 = id
    · simp only [mapSet, ha, if_pos] at h
      rcases List.mem_cons.mp h with h | h
      · exact Or.inl h
      · exact Or.inr (List.mem_cons_of_mem a h)
    · simp only [mapSet, ha, if_neg, Bool.false_eq_true] at h
      rcases List.mem_cons.mp h with h | h
      · exact Or.inr (h ▸ List.mem_cons_self a as)
      · rcases ih h with h | h
        · exact Or.inl h
        · exact Or.inr (List.mem_cons_of_mem a h)

theorem mem_setToCache (n : Nat) (c : Cache) (id : Value) (r : Record)
    (q : Value × Record) (h : q ∈ setToCache n c id r) : q = (id, r) ∨ q ∈ c := by
  unfold setToCache at h
  rcases mem_mapSet _ _ _ _ h with h | h
  · exact Or.inl h
  · by_cases hlen : c.length ≥ n
    · simp only [hlen, if_pos] at h
      exact Or.inr (List.mem_of_mem_drop h)
    · simp only [hlen, if_neg] at h
      exact Or.inr h

theorem mem_mapDelete (c : List (Value × Record)) (id : Value) (q : Value × Record)
    (h : q ∈ mapDelete c id) : q ∈ c ∧ q.1 ≠ id := by
  unfold mapDelete at h
  have := List.mem_filter.mp h
  exact ⟨this.1, by simpa using this.2⟩

theorem mapLookup_mapDelete_self (c : List (Value × Record)) (id : Value) :
    mapLookup (mapDelete c id) id = none := by
  have hf : (mapDelete c id).find? (fun p => p.1 = id) = none := by
    rw [List.find?_eq_none]
    intro x hx
    simpa using (mem_mapDelete c id x hx).2
  unfold mapLookup
  rw [hf]

theorem stricteq_str (x : String) (b : Value) :
    stricteq (.str x) b = true ↔ b = .str x := by
  cases b <;> simp [stricteq]
  exact comm

theorem stricteq_str_right (a : Value) (x : String) :
    stricteq a (.str x) = true ↔ a = .str x := by
  cases a <;> simp [stricteq]

theorem isStr_stricteq_eq (a b : Value) (ha : isStr a = true) :
    stricteq a b = true ↔ b = a := by
  cases a <;> simp [isStr] at ha ⊢
  exact stricteq_str _ b

theorem liveLookup_some (data : List Record) (id : Value) (r : Record)
    (h : liveLookup data id = some r) :
    r ∈ data ∧ stricteq (idOf r) id = true ∧ isDeleted r = false := by
  unfold liveLookup at h
  have hm := List.mem_of_find?_eq_some h
  have hp := List.find?_some h
  simp only [Bool.and_eq_true, Bool.not_eq_true'] at hp
  exact ⟨hm, hp.1, hp.2⟩

theorem liveLookup_eq_none (data : List Record) (id : Value)
    (h : ∀ r ∈ data, stricteq (idOf r) id = false ∨ isDeleted r = true) :
    liveLookup data id = none := by
  unfold liveLookup
  rw [List.find?_eq_none]
  intro r hr
  rcases h r hr with h' | h' <;> simp [h']

theorem jsonGet_fst (s : JState) (id : Value) (hcoh : cacheCoherent s) :
    (jsonGet s id).1 = liveLookup s.data id := by
  unfold jsonGet getFromCache
  cases hl : mapLookup s.cache id with
  | some item =>
    have := hcoh _ (mapLookup_some_mem _ _ _ hl)
    simpa using this.symm
  | none =>
    cases hs : liveLookup s.data id <;> simp [hs]

theorem jsonGet_snd_cacheOnly (s : JState) (id : Value) :
    ∃ c, (jsonGet s id).2 = { s with cache := c } := by
  unfold jsonGet getFromCache
  cases hl : mapLookup s.cache id with
  | some item => exact ⟨mapDelete s.cache id ++ [(id, item)], by simp⟩
  | none =>
    cases hs : liveLookup s.data id with
    | some record => exact ⟨setToCache s.cacheSize s.cache id record, by simp [hs]⟩
    | none => exact ⟨s.cache, by simp [hs]⟩

theorem jsonGet_coh (s : JState) (id : Value) (hcoh : cacheCoherent s) :
    cacheCoherent (jsonGet s id).2 := by
  unfold jsonGet getFromCache
  cases hl : mapLookup s.cache id with
  | some item =>
    intro p hp
    simp only at hp
    rcases List.mem_append.mp hp with hp | hp
    · exact hcoh _ (mem_mapDelete _ _ _ hp).1
    · have hpe : p = (id, item) := by simpa using hp
      cases hpe
      exact hcoh _ (mapLookup_some_mem _ _ _ hl)
  | none =>
    cases hs : liveLookup s.data id with
    | some record =>
      intro p hp
      simp only [hs] at hp ⊢
      rcases mem_setToCache _ _ _ _ _ hp with hp | hp
      · cases hp; simpa using hs
      · exact hcoh _ hp
    | none =>
      intro p hp
      simp only [hs] at hp ⊢
      exact hcoh _ hp

theorem replaceFirstById_nil (id : Value) (u : Record) :
    replaceFirstById [] id u = [] := rfl

theorem replaceFirstById_cons (h : Record) (t : List Record) (id : Value) (u : Record) :
    replaceFirstById (h :: t) id u =
      if stricteq (idOf h) id then u :: t else h :: replaceFirstById t id u := by
  unfold replaceFirstById
  by_cases hh : stricteq (idOf h) id = true
  · simp [List.findIdx?_cons, List.findIdx?_succ, hh]
  · simp only [List.findIdx?_cons, List.findIdx?_succ, hh]
    simp only [Bool.false_eq_true, if_false]
    cases hf : List.findIdx? (fun r => stricteq (idOf r) id) t with
    | none => simp [hh]
    | some i => simp [hh, List.set]

theorem length_replaceFirstById (data : List Record) (id : Value) (u : Record) :
    (replaceFirstById data id u).length = data.length := by
  unfold replaceFirstById
  cases h : data.findIdx? (fun r => stricteq (idOf r) id) with
  | none => rfl
  | some i => simp

theorem replaceFirst_decomp (data : List Record) (id : Value) (u ex : Record)
    (hnd : (data.map idOf).Nodup) (hstr : ∀ r ∈ data, isStr (idOf r) = true)
    (hex : liveLookup data id = some ex) :
    ∃ l1 l2, data = l1 ++ ex :: l2 ∧ replaceFirstById data id u = l1 ++ u :: l2 ∧
      (∀ r ∈ l1, stricteq (idOf r) id = false) ∧
      (∀ r ∈ l2, stricteq (idOf r) id = false) := by
  induction data with
  | nil => simp [liveLookup] at hex
  | cons h t ih =>
    have hidh := hstr h (List.mem_cons_self h t)
    by_cases hh : stricteq (idOf h) id = true
    · -- the head carries the id; by uniqueness nothing in the tail does
      have hid : id = idOf h := (isStr_stricteq_eq _ _ hidh).mp hh
      have htail : ∀ r ∈ t, stricteq (idOf r) id = false := by
        intro r hr
        by_contra hc
        have hc' : stricteq (idOf r) id = true := by
          cases hv : stricteq (idOf r) id
          · exact absurd hv hc
          · rfl
        have : id = idOf r := (isStr_stricteq_eq _ _ (hstr r (List.mem_cons_of_mem h hr))).mp hc'
        have : idOf h ∈ t.map idOf := by
          rw [hid] at this
          exact this ▸ List.mem_map_of_mem idOf hr
        exact (List.nodup_cons.mp (by simpa using hnd)).1 this
      -- the head must be live: otherwise `find?` would locate the id in
      -- the tail, contradicting uniqueness
      have hhd : isDeleted h = false := by
        by_contra hc
        have hdel : isDeleted h = true := by
          cases hv : isDeleted h
          · exact absurd hv hc
          · rfl
        have : liveLookup t id = some ex := by
          unfold liveLookup at hex ⊢
          simpa [List.find?, hh, hdel] using hex
        have hext := (liveLookup_some t id ex this).1
        have := (liveLookup_some t id ex this).2.1
        rw [htail ex hext] at this
        cases this
      have hexh : ex = h := by
        unfold liveLookup at hex
        simpa [List.find?, hh, hhd] using hex.symm
      refine ⟨[], t, by simp [hexh], ?_, by simp, htail⟩
      rw [replaceFirstById_cons, if_pos hh]
      simp
    · have hh' : stricteq (idOf h) id = false := by
        cases hv : stricteq (idOf h) id
        · rfl
        · exact absurd hv hh
      have hex' : liveLookup t id = some ex := by
        unfold liveLookup at hex ⊢
        simpa [List.find?, hh'] using hex
      obtain ⟨l1, l2, hdec, hrep, hl1, hl2⟩ :=
        ih (by simpa using (List.nodup_cons.mp (by simpa using hnd)).2)
          (fun r hr => hstr r (List.mem_cons_of_mem h hr)) hex'
      refine ⟨h :: l1, l2, by simp [hdec], ?_, ?_, hl2⟩
      · rw [replaceFirstById_cons, if_neg (by simp [hh']), hrep]
        rfl
      · intro r hr
        rcases List.mem_cons.mp hr with hr | hr
        · cases hr; exact hh'
        · exact hl1 r hr

/-! ## Claim C1 — crash-recovery round trip (refuted: the code loses data)

`init` replays the WAL and then deletes it **without saving the snapshot**
(`saveData` is only reached by the next successful mutation), and
`saveData` never truncates the WAL.  So with every operation killed
between its WAL append and its snapshot save, the replayed state of one
recovery evaporates at the next crash: after `insert {id:"a"}` (killed),
recovery holds `a` in memory only, deletes the WAL, and `insert {id:"b"}`
(killed) leaves a snapshotless directory whose WAL holds only `b`. -/

/-- Claim C1: killing after each WAL append and re-initializing is claimed
to reproduce the uninterrupted live record set; on the failing input
`[insert {id:"a"}, insert {id:"b"}]` the crash run recovers only `b`
while the uninterrupted run holds `a` and `b`. -/
theorem c1_crash_recovery_loses_acknowledged_insert :
    liveIds (crashRun c1ops) = [.str "b"] ∧
    liveIds (normalRun c1ops) = [.str "a", .str "b"] := by
  constructor <;> rfl

/-! ## Claim C6 — unrecognized operators (refuted: silently skipped)

No `InvalidOperator` (or any other) failure exists on either `find` path:
both evaluators are total.  The JSON engine's `switch` falls through an
unrecognized key and the operator loop then `return true`s, treating the
whole constraint as satisfied; the memory engine's `opMatch` stays
`false`, silently treating the constraint as violated. -/

/-- Claim C6: a filter with the unrecognized operator `$unknown` must
fail with `InvalidOperator`; instead `find` completes normally — the JSON
engine returns the record (the constraint is skipped as satisfied) and
the memory engine returns nothing (skipped as violated). -/
theorem c6_unrecognized_operator_is_silently_skipped :
    jsonFind [recAge] qBad = [recAge] ∧ memFind [(.str "r", recAge)] qBad = [] := by
  constructor <;> decide

/-! ## Claim C2 — filter contract -/

theorem memEvalOps_eq_all (fv : Value) (b : Bool) (l : List (String × Value))
    (h : ∀ oa ∈ l, recognizedOps.contains oa.1 = true) :
    memEvalOps fv b l = l.all (fun oa => evalOp oa.1 fv oa.2) := by
  induction l generalizing b with
  | nil => rfl
  | cons x xs ih =>
    obtain ⟨op, arg⟩ := x
    have hx := h (op, arg) (List.mem_cons_self _ xs)
    simp only [memEvalOps, hx, if_true, List.all_cons]
    cases hop : evalOp op fv arg with
    | true =>
      simpa using ih true (fun oa hoa => h oa (List.mem_cons_of_mem _ hoa))
    | false => simp

theorem memFieldPred_eq_spec (r : Record) (f : String) (v : FilterVal)
    (h : (match v with
          | .lit w => primValue w
          | .ops l => l.all (fun oa => recognizedOps.contains oa.1)) = true) :
    memFieldPred r f v = specFieldHolds r f v := by
  cases v with
  | lit w => simp [memFieldPred, specFieldHolds, evalOp]
  | ops l =>
    simp only [memFieldPred, specFieldHolds]
    exact memEvalOps_eq_all (getField r f) false l (by simpa [List.all_eq_true] using h)

theorem memRecordMatches_eq_spec (r : Record) (q : Filter)
    (h : wellFormedFilter q = true) :
    memRecordMatches r q = specMatches r q := by
  simp only [wellFormedFilter, List.all_eq_true] at h
  simp only [memRecordMatches, specMatches]
  induction q with
  | nil => rfl
  | cons fv rest ih =>
    have hfv := h fv (List.mem_cons_self fv rest)
    have hrest := ih (fun x hx => h x (List.mem_cons_of_mem fv hx))
    simp only [List.all_cons, hrest, memFieldPred_eq_spec r fv.1 fv.2 hfv]

/-- Claim C2 (amended): on the in-memory engine, for every well-formed
filter, `find` returns a record iff it is stored, live, and satisfies the
spec §4.1 contract (AND across fields, AND across each operator-object's
operators).  The JSON engine instead decides each operator-object by its
**first** recognized operator alone.  Concretely, `{age: 30}` matches
`{age: {$gte: 18, $lt: 65}}` and does not match `{age: {$gt: 30}}` on
both engines (the spec's tags conjunct is settled by this claim's
counterexample: `$in` tests the whole field value). -/
theorem c2_and_contract_amended :
    (∀ (data : List (Value × Record)) (r : Record) (q : Filter),
        wellFormedFilter q = true →
        (r ∈ memFind data q ↔
          r ∈ data.map Prod.snd ∧ isDeleted r = false ∧ specMatches r q = true)) ∧
    (∀ (r : Record) (f op : String) (arg : Value) (rest : List (String × Value)),
        recognizedOps.contains op = true →
        jsonFieldPred r f (.ops ((op, arg) :: rest)) = evalOp op (getField r f) arg) ∧
    jsonFind [recAge] qAge = [recAge] ∧ memFind [(.str "r", recAge)] qAge = [recAge] ∧
    jsonFind [recAge] qGt30 = [] ∧ memFind [(.str "r", recAge)] qGt30 = [] := by
  refine ⟨?_, ?_, by decide, by decide, by decide, by decide⟩
  · intro data r q hq
    simp only [memFind, List.mem_filter, Bool.and_eq_true, Bool.not_eq_true',
      memRecordMatches_eq_spec r q hq, and_assoc]
  · intro r f op arg rest h
    simp only [jsonFieldPred, jsonEvalOps, h, if_true]

/-- Witness for the amended claim C2 at the concrete scenario record and
the `{age: {$gte: 18, $lt: 65}}` filter. -/
theorem c2_and_contract_amended_witness :
    wellFormedFilter qAge = true ∧
    (recAge ∈ memFind [(.str "r", recAge)] qAge ↔
      recAge ∈ ([(.str "r", recAge)] : List (Value × Record)).map Prod.snd ∧
        isDeleted recAge = false ∧ specMatches recAge qAge = true) :=
  ⟨by decide, c2_and_contract_amended.1 [(.str "r", recAge)] recAge qAge (by decide)⟩

/-! ## Claim C7 — NotFound on update/delete of a non-live id -/

/-- Claim C7: for every id that names no live record (absent or already
soft-deleted), `update` and `delete` reject with the not-found error — an
outcome distinguishable by construction from any `.ok` result — and leave
the entire engine state (records, indexes, cache, files) untouched. -/
theorem c7_notfound_rejects_and_preserves_state (s : JState) (id : Value) (p : Record)
    (hcoh : cacheCoherent s) (habs : liveLookup s.data id = none) :
    jsonUpdate s id p = (.error "Record not found", s) ∧
    jsonDelete s id = (.error "Record not found", s) := by
  have hl : mapLookup s.cache id = none := by
    cases hl : mapLookup s.cache id with
    | none => rfl
    | some item =>
      have hco := hcoh _ (mapLookup_some_mem _ _ _ hl)
      simp only at hco
      rw [habs] at hco
      cases hco
  have hget : jsonGet s id = (none, s) := by
    unfold jsonGet getFromCache
    simp [hl, habs]
  constructor
  · unfold jsonUpdate jsonUpdateWal
    rw [hget]
  · unfold jsonDelete jsonDeleteWal
    rw [hget]

/-- Witness for claim C7: updating the absent id `"zz"` on a one-record
engine rejects and returns the state unchanged. -/
theorem c7_notfound_witness :
    cacheCoherent jAfterA ∧ liveLookup jAfterA.data (.str "zz") = none ∧
    jsonUpdate jAfterA (.str "zz") [] = (.error "Record not found", jAfterA) := by
  refine ⟨?_, by decide, ?_⟩
  · unfold cacheCoherent
    decide
  · exact (c7_notfound_rejects_and_preserves_state jAfterA (.str "zz") []
      (by unfold cacheCoherent; decide) (by decide)).1

/-! ## Claim C5 — id immutability (corrected: the payload can rebind it) -/

/-- Claim C5 (amended): the id is immutable under `update` **provided the
update payload does not itself contain an `id` field**; the spread-merge
`{...existing, ...data}` otherwise lets the payload rebind it (see the
counterexample).  Whenever such an update succeeds, the returned record
carries exactly the id that was targeted. -/
theorem c5_id_immutable_amended (s : JState) (id : Value) (p : Record) (r : Record)
    (hcoh : cacheCoherent s) (hp : ∀ kv ∈ p, kv.1 ≠ "id")
    (h : (jsonUpdate s id p).1 = .ok r) :
    stricteq (idOf r) id = true := by
  unfold jsonUpdate jsonUpdateWal at h
  rcases hg : jsonGet s id with ⟨res, s1⟩
  rw [hg] at h
  cases res with
  | none => simp at h
  | some existing =>
    simp only at h
    injection h with h
    have hid : idOf r = idOf existing := by
      rw [← h]
      rw [show idOf (setField (mergeRecords existing p) "_updated"
            (s1.nowISO).1) = idOf (mergeRecords existing p) from
        getField_setField_ne _ _ _ _ (by decide)]
      exact idOf_mergeRecords existing p hp
    have hfst : (jsonGet s id).1 = some existing := by rw [hg]
    rw [jsonGet_fst s id hcoh] at hfst
    rw [hid]
    exact (liveLookup_some _ _ _ hfst).2.1

/-- Witness for the amended claim C5: an id-free update of record `"a"`
keeps id `"a"`. -/
theorem c5_id_immutable_witness :
    (jsonUpdate jAfterA (.str "a") [("x", .num 9)]).1.toOption.map idOf
      = some (.str "a") := by
  cases hr : (jsonUpdate jAfterA (.str "a") [("x", .num 9)]).1 with
  | error e =>
    have hx : (jsonUpdate jAfterA (.str "a") [("x", .num 9)]).1.toOption.isSome
        = true := by decide
    rw [hr] at hx
    simp [Except.toOption] at hx
  | ok r =>
    have hs := c5_id_immutable_amended jAfterA (.str "a") [("x", .num 9)] r
      (by unfold cacheCoherent; decide) (by decide) hr
    simp [Except.toOption, (stricteq_str_right _ _).mp hs]

/-! ## Claim C9 — backup/restore round trip -/

theorem removeField_setField_self (r : Record) (k : String) (v : Value) :
    removeField (setField r k v) k = removeField r k := by
  induction r with
  | nil => simp [setField, removeField]
  | cons a as ih =>
    by_cases ha : a.1 = k
    · simp [setField, removeField, List.filter_cons, ha]
    · simp only [setField, ha, if_neg, Bool.false_eq_true]
      simp [removeField, List.filter_cons, ha] at ih ⊢
      exact ih

theorem removeField_setField_ne (r : Record) (k k' : String) (v : Value)
    (h : k ≠ k') :
    removeField (setField r k' v) k = setField (removeField r k) k' v := by
  induction r with
  | nil => simp [setField, removeField, Ne.symm h]
  | cons a as ih =>
    by_cases ha' : a.1 = k'
    · have hak : a.1 ≠ k := by rw [ha']; exact fun hh => h hh.symm
      simp [setField, removeField, List.filter_cons, ha', hak, Ne.symm h]
    · by_cases hak : a.1 = k
      · simp only [removeField, ne_eq, decide_not] at ih ⊢
        simp [setField, List.filter_cons, ha', hak, h, ih]
      · simp only [removeField, ne_eq, decide_not] at ih ⊢
        simp [setField, List.filter_cons, ha', hak, ih]

theorem removeField_removeField_self (r : Record) (k : String) :
    removeField (removeField r k) k = removeField r k := by
  simp [removeField, List.filter_filter]

theorem removeField_comm (r : Record) (k k' : String) :
    removeField (removeField r k) k' = removeField (removeField r k') k := by
  simp only [removeField, List.filter_filter]
  congr 1
  funext p
  rw [Bool.and_comm]

theorem setField_getField_self (r : Record) (k : String)
    (h : truthy (getField r k) = true) : setField r k (getField r k) = r := by
  induction r with
  | nil => simp [truthy] at h
  | cons a as ih =>
    by_cases ha : a.1 = k
    · simp only [setField, ha, if_pos]
      rw [getField_cons, if_pos ha]
      rw [← ha]
    · rw [getField_cons, if_neg ha] at h ⊢
      simp [setField, ha, ih h]

theorem stripSys_idem (r : Record) : stripSys (stripSys r) = stripSys r := by
  unfold stripSys removeField
  simp only [List.filter_filter]
  congr 1
  funext p
  by_cases h1 : p.1 = "_created" <;> by_cases h2 : p.1 = "_updated" <;>
    by_cases h3 : p.1 = "_deleted" <;> by_cases h4 : p.1 = "_deleted_at" <;>
    simp [h1, h2, h3, h4]

theorem getField_stripSys_id (r : Record) :
    getField (stripSys r) "id" = getField r "id" := by
  unfold stripSys
  rw [getField_removeField_ne _ _ _ (by decide), getField_removeField_ne _ _ _ (by decide),
    getField_removeField_ne _ _ _ (by decide), getField_removeField_ne _ _ _ (by decide)]

/-- The system-field re-stamping of one restored record dissolves under
`stripSys`: what `restore` writes back strips to what `backup` wrote
out. -/
theorem stripSys_restored (r : Record) (t : Value)
    (htruthy : truthy (getField r "id") = true) :
    stripSys (setField (setField (setField r "id" (getField r "id"))
        "_created" t) "_updated" t) = stripSys r := by
  unfold stripSys
  rw [removeField_setField_ne _ "_created" "_updated" _ (by decide),
    removeField_setField_self, removeField_setField_self,
    removeField_setField_ne _ "_created" "id" _ (by decide),
    removeField_setField_ne _ "_updated" "id" _ (by decide),
    removeField_setField_ne _ "_deleted" "id" _ (by decide),
    removeField_setField_ne _ "_deleted_at" "id" _ (by decide)]
  have hg : getField (removeField (removeField (removeField (removeField r
      "_created") "_updated") "_deleted") "_deleted_at") "id" = getField r "id" := by
    rw [getField_removeField_ne _ _ _ (by decide), getField_removeField_ne _ _ _ (by decide),
      getField_removeField_ne _ _ _ (by decide), getField_removeField_ne _ _ _ (by decide)]
  rw [← hg, setField_getField_self _ _ (by rw [hg]; exact htruthy)]

theorem mapSet_fresh (c : List (Value × Record)) (id : Value) (r : Record)
    (h : ∀ p ∈ c, p.1 ≠ id) : mapSet c id r = c ++ [(id, r)] := by
  induction c with
  | nil => rfl
  | cons a as ih =>
    have ha := h a (List.mem_cons_self a as)
    simp [mapSet, ha, ih (fun p hp => h p (List.mem_cons_of_mem a hp))]

theorem memRestoreStep_truthy (acc : MState) (r : Record)
    (h : truthy (getField r "id") = true) :
    memRestoreStep acc r =
      { acc with
        clock := acc.clock + 1,
        data := mapSet acc.data (getField r "id")
          (setField (setField (setField r "id" (getField r "id")) "_created"
            (.str (toString acc.clock))) "_updated" (.str (toString acc.clock))) } := by
  unfold memRestoreStep MState.nowISO
  simp [h]

theorem memRestore_fold_strip (rs : List Record) (acc : MState)
    (hids : ∀ r ∈ rs, truthy (getField r "id") = true)
    (hnd : (rs.map (fun r => getField r "id")).Nodup)
    (hfresh : ∀ r ∈ rs, ∀ p ∈ acc.data, p.1 ≠ getField r "id") :
    ((rs.foldl memRestoreStep acc).data.map Prod.snd).map stripSys
      = (acc.data.map Prod.snd).map stripSys ++ rs.map stripSys := by
  induction rs generalizing acc with
  | nil => simp
  | cons r rest ih =>
    have hidr := hids r (List.mem_cons_self r rest)
    rw [List.foldl_cons, memRestoreStep_truthy acc r hidr]
    rw [ih _ (fun x hx => hids x (List.mem_cons_of_mem r hx))
      (by simpa using (List.nodup_cons.mp (by simpa using hnd)).2) ?_]
    · simp only [mapSet_fresh acc.data (getField r "id") _
        (fun p hp => hfresh r (List.mem_cons_self r rest) p hp)]
      simp only [List.map_append, List.map_cons, List.map_nil, List.map_map]
      rw [List.append_assoc]
      congr 1
      simp only [List.map_cons, List.cons_append, List.nil_append]
      congr 1
      exact stripSys_restored r (.str (toString acc.clock)) hidr
    · intro x hx p hp
      simp only [mapSet_fresh acc.data (getField r "id") _
        (fun q hq => hfresh r (List.mem_cons_self r rest) q hq)] at hp
      rcases List.mem_append.mp hp with hp | hp
      · exact hfresh x (List.mem_cons_of_mem r hx) p hp
      · have hpp := List.mem_singleton.mp hp
        intro hc
        rw [hpp] at hc
        have hc' : getField r "id" = getField x "id" := hc
        have hmem : getField r "id" ∈ rest.map (fun rr => getField rr "id") := by
          rw [hc']
          exact List.mem_map_of_mem _ hx
        exact (List.nodup_cons.mp (by simpa using hnd)).1 hmem

/-- Claim C9 (amended): backup-then-restore reproduces the live record
set **exactly** for the JSON engine (its backup copies the snapshot file,
which equals the in-memory array after every completed mutation, and its
restore loads it verbatim, timestamps included); for the memory engine it
reproduces the live records only up to the framework timestamp fields —
`backup` strips `_created`/`_updated`/`_deleted`/`_deleted_at` and
`restore` re-stamps fresh values — while ids and user fields survive
exactly, in order. -/
theorem c9_backup_restore_amended :
    (∀ (s s2 : JState), s.dataFile = some s.data →
        liveRecords (jsonRestore s2 ((jsonBackup s).1.map Prod.fst)).2.data
          = liveRecords s.data) ∧
    (∀ (m m2 : MState),
        (∀ r ∈ m.data.map Prod.snd, truthy (getField r "id") = true) →
        ((liveRecords (m.data.map Prod.snd)).map idOf).Nodup →
        ((memRestore m2 (some (memBackup m))).2.data.map Prod.snd).map stripSys
          = (liveRecords (m.data.map Prod.snd)).map stripSys) := by
  constructor
  · intro s s2 h
    unfold jsonBackup
    rw [h]
    simp [jsonRestore, saveData]
  · intro m m2 h1 h2
    have hdata : (memRestore m2 (some (memBackup m))).2.data
        = ((memBackup m).foldl memRestoreStep { m2 with data := [], cache := [] }).data := by
      simp [memRestore]
    rw [hdata]
    have hback : memBackup m = (liveRecords (m.data.map Prod.snd)).map stripSys := rfl
    have hids : ∀ r ∈ memBackup m, truthy (getField r "id") = true := by
      intro r hr
      rw [hback] at hr
      obtain ⟨orig, ho, rfl⟩ := List.mem_map.mp hr
      rw [getField_stripSys_id]
      exact h1 orig (List.mem_of_mem_filter ho)
    have hnd : ((memBackup m).map (fun r => getField r "id")).Nodup := by
      rw [hback, List.map_map]
      have : (fun r => getField r "id") ∘ stripSys = idOf := by
        funext r
        exact getField_stripSys_id r
      rw [this]
      exact h2
    rw [memRestore_fold_strip (memBackup m) _ hids hnd (by intro r hr p hp; simp at hp)]
    rw [hback, List.map_map]
    have : stripSys ∘ stripSys = stripSys := by
      funext r
      exact stripSys_idem r
    simp [this]

/-- Witness for the amended claim C9: the JSON conjunct at a one-record
engine whose snapshot file is current. -/
theorem c9_backup_restore_witness :
    jAfterA.dataFile = some jAfterA.data ∧
    liveRecords (jsonRestore freshJState ((jsonBackup jAfterA).1.map Prod.fst)).2.data
      = liveRecords jAfterA.data :=
  ⟨by decide, c9_backup_restore_amended.1 jAfterA freshJState (by decide)⟩

/-! ## Claim C8 — LRU cache -/

theorem length_mapSet_le (c : List (Value × Record)) (id : Value) (r : Record) :
    (mapSet c id r).length ≤ c.length + 1 := by
  induction c with
  | nil => simp [mapSet]
  | cons a as ih =>
    by_cases ha : a.1 = id
    · simp [mapSet, ha]
    · simp [mapSet, ha]
      omega

theorem mem_keys_mapSet_of_mem (c : List (Value × Record)) (id : Value) (r : Record)
    (k : Value) (h : k ∈ c.map Prod.fst) : k ∈ (mapSet c id r).map Prod.fst := by
  induction c with
  | nil => simp at h
  | cons a as ih =>
    rw [List.map_cons] at h
    rcases List.mem_cons.mp h with h' | h'
    · by_cases ha : a.1 = id
      · simp only [mapSet, ha, if_pos, List.map_cons]
        rw [h', ha]
        exact List.mem_cons_self _ _
      · simp only [mapSet, ha, if_neg, Bool.false_eq_true, List.map_cons]
        rw [h']
        exact List.mem_cons_self _ _
    · by_cases ha : a.1 = id
      · simp only [mapSet, ha, if_pos, List.map_cons]
        exact List.mem_cons_of_mem _ h'
      · simp only [mapSet, ha, if_neg, Bool.false_eq_true, List.map_cons]
        exact List.mem_cons_of_mem _ (ih h')

/-- `setToCache` fills a fresh key below capacity as a plain append. -/
theorem fill_below_cap (N : Nat) (entries : List (Value × Record)) (c0 : Cache)
    (hlen : c0.length + entries.length ≤ N)
    (hfresh : ∀ p ∈ entries, ∀ q ∈ c0, q.1 ≠ p.1)
    (hnd : (entries.map Prod.fst).Nodup) :
    entries.foldl (fun c p => setToCache N c p.1 p.2) c0 = c0 ++ entries := by
  induction entries generalizing c0 with
  | nil => simp
  | cons e es ih =>
    have hlt : ¬c0.length ≥ N := by simp only [List.length_cons] at hlen; omega
    have hstep : setToCache N c0 e.1 e.2 = c0 ++ [e] := by
      have hdef : setToCache N c0 e.1 e.2
          = mapSet (if c0.length ≥ N then c0.drop 1 else c0) e.1 e.2 := rfl
      rw [hdef, if_neg hlt,
        mapSet_fresh c0 e.1 e.2 (fun q hq => hfresh e (List.mem_cons_self e es) q hq)]
    have hfr : ∀ p ∈ es, ∀ q ∈ c0 ++ [e], q.1 ≠ p.1 := by
      intro p hp q hq
      rcases List.mem_append.mp hq with hq | hq
      · exact hfresh p (List.mem_cons_of_mem e hp) q hq
      · have hqe : q = e := by simpa using hq
        rw [hqe]
        intro hc
        have : e.1 ∈ es.map Prod.fst := hc ▸ List.mem_map_of_mem _ hp
        exact (List.nodup_cons.mp (by simpa using hnd)).1 this
    rw [List.foldl_cons, hstep,
      ih (c0 ++ [e])
        (by simp only [List.length_append, List.length_cons, List.length_nil] at hlen ⊢; omega)
        hfr ((List.nodup_cons.mp (by simpa using hnd)).2)]
    simp

/-- Claim C8 (amended): (a) filling a capacity-`N` cache with `N` distinct
fresh ids and then one further distinct id evicts exactly the oldest entry
and no other; (b) `setToCache` never grows the cache beyond `N` entries;
(c) a `get`-hit promotes its entry to most-recently-used and — **provided
the capacity is at least 2** — the very next `setToCache` cannot evict it
(at capacity 1 the counterexample shows the freshly promoted id is evicted
anyway). -/
theorem c8_lru_amended :
    (∀ (N : Nat), 1 ≤ N → ∀ (front : List (Value × Record)) (last : Value × Record),
      front.length = N → (((front ++ [last]).map Prod.fst)).Nodup →
      (front ++ [last]).foldl (fun c p => setToCache N c p.1 p.2) []
        = (front ++ [last]).drop 1) ∧
    (∀ (N : Nat), 1 ≤ N → ∀ (c : Cache) (id : Value) (r : Record),
      c.length ≤ N → (setToCache N c id r).length ≤ N) ∧
    (∀ (N : Nat), 2 ≤ N → ∀ (c : Cache) (x : Value) (v : Record),
      (getFromCache c x).1 = some v →
      (getFromCache c x).2 = mapDelete c x ++ [(x, v)] ∧
      ∀ (y : Value) (r : Record),
        x ∈ (setToCache N (getFromCache c x).2 y r).map Prod.fst) := by
  refine ⟨?_, ?_, ?_⟩
  · intro N hN front last hflen hnd
    have hnd2 : (front.map Prod.fst).Nodup ∧
        (front.map Prod.fst).Disjoint [last.1] := by
      have := (List.nodup_append).mp (by simpa using hnd)
      exact ⟨this.1, this.2.2⟩
    rw [List.foldl_append]
    rw [fill_below_cap N front [] (by simpa using hflen.le) (by simp) hnd2.1]
    simp only [List.nil_append, List.foldl_cons, List.foldl_nil]
    have hfull : front.length ≥ N := hflen.ge
    have hdef : setToCache N front last.1 last.2
        = mapSet (if front.length ≥ N then front.drop 1 else front) last.1 last.2 := rfl
    have hfr : ∀ q ∈ front.drop 1, q.1 ≠ last.1 := by
      intro q hq
      have hqf : q ∈ front := List.mem_of_mem_drop hq
      intro hc
      have h1 : last.1 ∈ front.map Prod.fst := hc ▸ List.mem_map_of_mem _ hqf
      exact hnd2.2 h1 (by simp)
    rw [hdef, if_pos hfull, mapSet_fresh (front.drop 1) last.1 last.2 hfr,
      List.drop_append_of_le_length (by omega)]
  · intro N hN c id r hc
    have hdef : setToCache N c id r
        = mapSet (if c.length ≥ N then c.drop 1 else c) id r := rfl
    rw [hdef]
    by_cases hfull : c.length ≥ N
    · rw [if_pos hfull]
      have h1 := length_mapSet_le (c.drop 1) id r
      have h2 : (c.drop 1).length = c.length - 1 := by simp
      omega
    · rw [if_neg hfull]
      have h1 := length_mapSet_le c id r
      omega
  · intro N hN c x v hhit
    have hsnd : (getFromCache c x).2 = mapDelete c x ++ [(x, v)] := by
      unfold getFromCache at hhit ⊢
      cases hl : mapLookup c x with
      | none => simp [hl] at hhit
      | some item =>
        simp only [hl] at hhit ⊢
        injection hhit with hh
        rw [hh]
    refine ⟨hsnd, ?_⟩
    intro y r
    rw [hsnd]
    have hdef : setToCache N (mapDelete c x ++ [(x, v)]) y r
        = mapSet (if (mapDelete c x ++ [(x, v)]).length ≥ N
            then (mapDelete c x ++ [(x, v)]).drop 1
            else mapDelete c x ++ [(x, v)]) y r := rfl
    rw [hdef]
    apply mem_keys_mapSet_of_mem
    by_cases hfull : (mapDelete c x ++ [(x, v)]).length ≥ N
    · rw [if_pos hfull]
      cases hmd : mapDelete c x with
      | nil =>
        exfalso
        rw [hmd] at hfull
        simp at hfull
        omega
      | cons a as =>
        simp
    · rw [if_neg hfull]
      simp


/-- Witness for the amended claim C8 at capacity 2: filling with three
distinct ids leaves the younger two (the oldest evicted), and after a hit
on `"a"` in a full cache the next set cannot evict `"a"`. -/
theorem c8_lru_witness :
    ((([(Value.str "a", recA), (Value.str "b", recB)] : List (Value × Record)).length = 2) ∧
      ([(Value.str "a", recA), (Value.str "b", recB), (Value.str "c", recA)].foldl
        (fun c p => setToCache 2 c p.1 p.2) []
        = [(Value.str "b", recB), (Value.str "c", recA)])) ∧
    ((getFromCache [(Value.str "a", recA), (Value.str "b", recB)] (Value.str "a")).1
        = some recA ∧
      Value.str "a" ∈ (setToCache 2
        (getFromCache [(Value.str "a", recA), (Value.str "b", recB)] (Value.str "a")).2
        (Value.str "c") recB).map Prod.fst) := by
  constructor
  · refine ⟨by decide, ?_⟩
    exact c8_lru_amended.1 2 (by decide)
      [(Value.str "a", recA), (Value.str "b", recB)] (Value.str "c", recA)
      (by decide) (by decide)
  · refine ⟨by decide, ?_⟩
    exact (c8_lru_amended.2.2 2 (by decide)
      [(Value.str "a", recA), (Value.str "b", recB)] (Value.str "a") recA
      (by decide)).2 (Value.str "c") recB

/-! ## Claim C4 — soft delete, then compact -/

theorem jsonFind_foldl_mem (q : Filter) (r' : Record) :
    ∀ (init : List Record),
      r' ∈ q.foldl
        (fun res fv =>
          if underscored fv.1 then res
          else res.filter (fun r => jsonFieldPred r fv.1 fv.2)) init →
      r' ∈ init := by
  induction q with
  | nil => intro init h; simpa using h
  | cons fv rest ih =>
    intro init h
    rw [List.foldl_cons] at h
    by_cases hu : underscored fv.1
    · rw [if_pos hu] at h
      exact ih init h
    · rw [if_neg hu] at h
      exact (List.mem_filter.mp (ih _ h)).1

theorem jsonFind_mem (data : List Record) (q : Filter) (r' : Record)
    (h : r' ∈ jsonFind data q) : r' ∈ data ∧ isDeleted r' = false := by
  unfold jsonFind at h
  have hin := jsonFind_foldl_mem q r' _ h
  exact ⟨(List.mem_filter.mp hin).1, by simpa using (List.mem_filter.mp hin).2⟩

theorem liveLookup_none_middle (l1 l2 : List Record) (m : Record) (id : Value)
    (h1 : ∀ r ∈ l1, stricteq (idOf r) id = false)
    (h2 : ∀ r ∈ l2, stricteq (idOf r) id = false)
    (hm : isDeleted m = true) :
    liveLookup (l1 ++ m :: l2) id = none := by
  apply liveLookup_eq_none
  intro r hr
  rcases List.mem_append.mp hr with hr | hr
  · exact Or.inl (h1 r hr)
  · rcases List.mem_cons.mp hr with hr | hr
    · exact Or.inr (hr ▸ hm)
    · exact Or.inl (h2 r hr)

/-- The shape of a successful `delete`: the record `get` found is replaced
in place by its tombstoned copy, and its cache entry is dropped. -/
theorem jsonDelete_spec (s : JState) (id : Value)
    (hok : (jsonDelete s id).1 = .ok true) :
    ∃ existing t,
      (jsonGet s id).1 = some existing ∧
      (jsonDelete s id).2.data = replaceFirstById s.data id
        (setField (setField existing "_deleted" (.bool true)) "_deleted_at" t) ∧
      (jsonDelete s id).2.cache = mapDelete (jsonGet s id).2.cache id := by
  obtain ⟨c, hc⟩ := jsonGet_snd_cacheOnly s id
  rcases hg : jsonGet s id with ⟨res, s1⟩
  have hs1 : s1 = { s with cache := c } := by rw [hg] at hc; exact hc
  cases res with
  | none =>
    exfalso
    unfold jsonDelete jsonDeleteWal at hok
    rw [hg] at hok
    simp at hok
  | some existing =>
    refine ⟨existing, (.str (toString s1.clock)), rfl, ?_, ?_⟩
    · unfold jsonDelete jsonDeleteWal
      rw [hg]
      simp only [writeToWAL, JState.nowISO, saveData]
      rw [hs1]
    · unfold jsonDelete jsonDeleteWal
      rw [hg]
      simp only [writeToWAL, JState.nowISO, saveData]

theorem isDeleted_marked (existing : Record) (t : Value) :
    isDeleted (setField (setField existing "_deleted" (.bool true)) "_deleted_at" t)
      = true := by
  unfold isDeleted
  rw [getField_setField_ne _ _ _ _ (by decide), getField_setField_self]
  rfl

theorem idOf_marked (existing : Record) (t : Value) :
    idOf (setField (setField existing "_deleted" (.bool true)) "_deleted_at" t)
      = idOf existing := by
  unfold idOf
  rw [getField_setField_ne _ _ _ _ (by decide), getField_setField_ne _ _ _ _ (by decide)]

theorem idOf_stripCompact (r : Record) : idOf (stripCompact r) = idOf r := by
  unfold idOf stripCompact
  rw [getField_removeField_ne _ _ _ (by decide), getField_removeField_ne _ _ _ (by decide)]

/-- Claim C4: after a successful `delete(id)` on a state satisfying the
data-model invariants, `get(id)` is null and `find` returns no record with
that id, yet the stored record count is unchanged and a record with the id
is still physically present; `compact()` then shrinks the array to exactly
the live records, which no longer include the id. -/
theorem c4_soft_delete_exclusion (s : JState) (id : Value)
    (hu : uniqueIds s.data) (hcoh : cacheCoherent s)
    (hok : (jsonDelete s id).1 = .ok true) :
    ((jsonGet (jsonDelete s id).2 id).1 = none) ∧
    (∀ q r', r' ∈ jsonFind (jsonDelete s id).2.data q → stricteq (idOf r') id = false) ∧
    ((jsonDelete s id).2.data.length = s.data.length) ∧
    (∃ r' ∈ (jsonDelete s id).2.data, stricteq (idOf r') id = true) ∧
    ((jsonCompact (jsonDelete s id).2).2.data.length
      = (liveRecords (jsonDelete s id).2.data).length) ∧
    ((liveRecords (jsonDelete s id).2.data).length < (jsonDelete s id).2.data.length) ∧
    (∀ r' ∈ (jsonCompact (jsonDelete s id).2).2.data, stricteq (idOf r') id = false) := by
  obtain ⟨existing, t, hgetv, hdata, hcache⟩ := jsonDelete_spec s id hok
  have hL : liveLookup s.data id = some existing := by
    rw [← jsonGet_fst s id hcoh]; exact hgetv
  obtain ⟨l1, l2, hsplit, hrep, hl1, hl2⟩ :=
    replaceFirst_decomp s.data id
      (setField (setField existing "_deleted" (.bool true)) "_deleted_at" t)
      existing hu.1 hu.2 hL
  have hmarkdel := isDeleted_marked existing t
  have hmarkid := idOf_marked existing t
  have hstr := (liveLookup_some _ _ _ hL).2.1
  have hnewdata : (jsonDelete s id).2.data = l1 ++
      (setField (setField existing "_deleted" (.bool true)) "_deleted_at" t) :: l2 := by
    rw [hdata, hrep]
  have hlive : liveLookup (jsonDelete s id).2.data id = none := by
    rw [hnewdata]
    exact liveLookup_none_middle l1 l2 _ id hl1 hl2 hmarkdel
  refine ⟨?_, ?_, ?_, ?_, ?_, ?_, ?_⟩
  · unfold jsonGet getFromCache
    rw [hcache, mapLookup_mapDelete_self, hlive]
  · intro q r' hr'
    obtain ⟨hmem, hlive'⟩ := jsonFind_mem _ _ _ hr'
    rw [hnewdata] at hmem
    rcases List.mem_append.mp hmem with hm | hm
    · exact hl1 r' hm
    · rcases List.mem_cons.mp hm with hm | hm
      · rw [hm] at hlive'
        rw [hmarkdel] at hlive'
        cases hlive'
      · exact hl2 r' hm
  · rw [hdata]
    exact length_replaceFirstById s.data id _
  · refine ⟨_, by rw [hnewdata]; exact List.mem_append_right l1 (List.mem_cons_self _ _), ?_⟩
    rw [hmarkid]
    exact hstr
  · simp [jsonCompact, liveRecords]
  · unfold liveRecords
    rw [List.length_filter_lt_length_iff_exists]
    refine ⟨_, by rw [hnewdata]; exact List.mem_append_right l1 (List.mem_cons_self _ _), ?_⟩
    simp [hmarkdel]
  · intro r' hr'
    have : (jsonCompact (jsonDelete s id).2).2.data
        = ((jsonDelete s id).2.data.filter (fun r => !isDeleted r)).map stripCompact := by
      simp [jsonCompact]
    rw [this] at hr'
    obtain ⟨r0, hr0, rfl⟩ := List.mem_map.mp hr'
    have hm0 := List.mem_filter.mp hr0
    rw [idOf_stripCompact]
    rw [hnewdata] at hm0
    rcases List.mem_append.mp hm0.1 with hm | hm
    · exact hl1 r0 hm
    · rcases List.mem_cons.mp hm with hm | hm
      · exfalso
        have := hm0.2
        rw [hm, hmarkdel] at this
        cases this
      · exact hl2 r0 hm

/-- Witness for claim C4 at a two-record engine: delete `"a"`, then
observe the null `get`, unchanged count, and the compacted count. -/
theorem c4_soft_delete_witness :
    uniqueIds jAfterAB.data ∧ cacheCoherent jAfterAB ∧
    (jsonDelete jAfterAB (.str "a")).1 = .ok true ∧
    ((jsonGet (jsonDelete jAfterAB (.str "a")).2 (.str "a")).1 = none ∧
      (jsonDelete jAfterAB (.str "a")).2.data.length = jAfterAB.data.length) := by
  have h1 : uniqueIds jAfterAB.data := by
    unfold uniqueIds
    constructor
    · decide
    · decide
  have h2 : cacheCoherent jAfterAB := by
    unfold cacheCoherent
    decide
  have h3 : (jsonDelete jAfterAB (.str "a")).1 = .ok true := by rfl
  have hmain := c4_soft_delete_exclusion jAfterAB (.str "a") h1 h2 h3
  exact ⟨h1, h2, h3, hmain.1, hmain.2.2.1⟩

/-! ## Claims C3 and C10 — the engine-state invariant under well-formed
operation sequences -/

theorem mem_contrib (f : String) (r : Record) (p : Value × Value) :
    p ∈ contrib f r ↔
      isDeleted r = false ∧ getField r f ≠ .undefined ∧
        getField r f = p.1 ∧ idOf r = p.2 := by
  unfold contrib
  by_cases hd : isDeleted r
  · simp [hd]
  · by_cases hf : getField r f = .undefined
    · simp [hd, hf]
    · obtain ⟨p1, p2⟩ := p
      simp only [hd, hf, if_neg, Bool.false_eq_true, if_false, List.mem_singleton,
        Prod.mk.injEq]
      constructor
      · rintro ⟨ha, hb⟩
        exact ⟨by simp [hd], hf, ha.symm, hb.symm⟩
      · rintro ⟨_, _, ha, hb⟩
        exact ⟨ha.symm, hb.symm⟩

theorem mem_rebuildRel (data : List Record) (f : String) (p : Value × Value) :
    p ∈ rebuildRel data f ↔
      ∃ r ∈ data, isDeleted r = false ∧ getField r f ≠ .undefined ∧
        getField r f = p.1 ∧ idOf r = p.2 := by
  unfold rebuildRel
  rw [List.mem_toFinset]
  induction data with
  | nil => simp
  | cons r rest ih =>
    simp only [List.foldr_cons, List.mem_append, ih, List.mem_cons]
    rw [mem_contrib]
    constructor
    · rintro (h | ⟨r', hr', h⟩)
      · exact ⟨r, Or.inl rfl, h⟩
      · exact ⟨r', Or.inr hr', h⟩
    · rintro ⟨r', hr' | hr', h⟩
      · exact Or.inl (hr' ▸ h)
      · exact Or.inr ⟨r', hr', h⟩

theorem rebuildRel_append_one (data : List Record) (d : Record) (f : String) :
    rebuildRel (data ++ [d]) f = rebuildRel data f ∪ (contrib f d).toFinset := by
  apply Finset.ext
  intro p
  rw [Finset.mem_union, mem_rebuildRel, mem_rebuildRel, List.mem_toFinset, mem_contrib]
  constructor
  · rintro ⟨r, hr, h⟩
    rcases List.mem_append.mp hr with hr | hr
    · exact Or.inl ⟨r, hr, h⟩
    · exact Or.inr (by rw [← List.mem_singleton.mp hr]; exact h)
  · rintro (⟨r, hr, h⟩ | h)
    · exact ⟨r, List.mem_append_left _ hr, h⟩
    · exact ⟨d, List.mem_append_right _ (List.mem_singleton_self d), h⟩

theorem mem_rebuildRel_middle (l1 l2 : List Record) (m : Record) (f : String)
    (p : Value × Value) :
    p ∈ rebuildRel (l1 ++ m :: l2) f ↔
      p ∈ rebuildRel l1 f ∨
        (isDeleted m = false ∧ getField m f ≠ .undefined ∧
          getField m f = p.1 ∧ idOf m = p.2) ∨
      p ∈ rebuildRel l2 f := by
  rw [mem_rebuildRel, mem_rebuildRel, mem_rebuildRel]
  constructor
  · rintro ⟨r, hr, h⟩
    rcases List.mem_append.mp hr with hr | hr
    · exact Or.inl ⟨r, hr, h⟩
    · rcases List.mem_cons.mp hr with hr | hr
      · exact Or.inr (Or.inl (hr ▸ h))
      · exact Or.inr (Or.inr ⟨r, hr, h⟩)
  · rintro (⟨r, hr, h⟩ | h | ⟨r, hr, h⟩)
    · exact ⟨r, List.mem_append_left _ hr, h⟩
    · exact ⟨m, List.mem_append_right _ (List.mem_cons_self m l2), h⟩
    · exact ⟨r, List.mem_append_right _ (List.mem_cons_of_mem m hr), h⟩

theorem rebuildRel_snd_ne (l : List Record) (f : String) (v : Value)
    (h : ∀ r ∈ l, idOf r ≠ v) : ∀ q ∈ rebuildRel l f, q.2 ≠ v := by
  intro q hq
  obtain ⟨r, hr, _, _, _, h4⟩ := (mem_rebuildRel l f q).mp hq
  rw [← h4]
  exact h r hr

theorem insertIndexStep_rebuild (data : List Record) (d : Record) (f : String)
    (hlive : isDeleted d = false) :
    insertIndexStep f d (rebuildRel data f) = rebuildRel (data ++ [d]) f := by
  rw [rebuildRel_append_one]
  unfold insertIndexStep contrib
  by_cases hf : getField d f = .undefined
  · simp [hf, hlive]
  · simp [hf, hlive, Finset.insert_eq, Finset.union_comm]

theorem updateIndexStep_rebuild (l1 l2 : List Record) (ex u : Record) (f : String)
    (hexlive : isDeleted ex = false) (hulive : isDeleted u = false)
    (huid : idOf u = idOf ex)
    (hl1 : ∀ r ∈ l1, idOf r ≠ idOf ex) (hl2 : ∀ r ∈ l2, idOf r ≠ idOf ex) :
    updateIndexStep f ex u (idOf ex) (rebuildRel (l1 ++ ex :: l2) f)
      = rebuildRel (l1 ++ u :: l2) f := by
  have hL1 := rebuildRel_snd_ne l1 f (idOf ex) hl1
  have hL2 := rebuildRel_snd_ne l2 f (idOf ex) hl2
  unfold updateIndexStep
  by_cases hch : getField ex f = getField u f
  · rw [if_pos hch]
    apply Finset.ext
    intro p
    rw [mem_rebuildRel_middle, mem_rebuildRel_middle]
    constructor
    · rintro (h | ⟨_, h2, h3, h4⟩ | h)
      · exact Or.inl h
      · exact Or.inr (Or.inl ⟨hulive, by rw [← hch]; exact h2, by rw [← hch]; exact h3,
          by rw [huid]; exact h4⟩)
      · exact Or.inr (Or.inr h)
    · rintro (h | ⟨_, h2, h3, h4⟩ | h)
      · exact Or.inl h
      · exact Or.inr (Or.inl ⟨hexlive, by rw [hch]; exact h2, by rw [hch]; exact h3,
          by rw [← huid]; exact h4⟩)
      · exact Or.inr (Or.inr h)
  · rw [if_neg hch]
    by_cases hex : getField ex f = .undefined
    · rw [if_pos hex]
      by_cases hu : getField u f = .undefined
      · exact absurd (hex.trans hu.symm) hch
      · rw [if_neg hu]
        apply Finset.ext
        intro p
        rw [Finset.mem_insert, mem_rebuildRel_middle, mem_rebuildRel_middle]
        constructor
        · rintro (h | h | ⟨_, h2, _, _⟩ | h)
          · exact Or.inr (Or.inl ⟨hulive, hu, (congrArg Prod.fst h).symm,
              by rw [huid]; exact (congrArg Prod.snd h).symm⟩)
          · exact Or.inl h
          · exact absurd hex h2
          · exact Or.inr (Or.inr h)
        · rintro (h | ⟨_, _, h3, h4⟩ | h)
          · exact Or.inr (Or.inl h)
          · refine Or.inl ?_
            obtain ⟨p1, p2⟩ := p
            simp only at h3 h4
            rw [← h3, ← huid, h4]
          · exact Or.inr (Or.inr (Or.inr h))
    · rw [if_neg hex]
      by_cases hu : getField u f = .undefined
      · rw [if_pos hu]
        apply Finset.ext
        intro p
        rw [Finset.mem_erase, mem_rebuildRel_middle, mem_rebuildRel_middle]
        constructor
        · rintro ⟨hne, h | ⟨_, _, h3, h4⟩ | h⟩
          · exact Or.inl h
          · exfalso
            apply hne
            obtain ⟨p1, p2⟩ := p
            simp only at h3 h4
            rw [← h3, ← h4]
          · exact Or.inr (Or.inr h)
        · rintro (h | ⟨_, h2, _, _⟩ | h)
          · exact ⟨fun hc => hL1 p h (by rw [hc]), Or.inl h⟩
          · exact absurd hu h2
          · exact ⟨fun hc => hL2 p h (by rw [hc]), Or.inr (Or.inr h)⟩
      · rw [if_neg hu]
        apply Finset.ext
        intro p
        rw [Finset.mem_insert, Finset.mem_erase, mem_rebuildRel_middle,
          mem_rebuildRel_middle]
        constructor
        · rintro (h | ⟨hne, h | ⟨_, _, h3, h4⟩ | h⟩)
          · exact Or.inr (Or.inl ⟨hulive, hu, (congrArg Prod.fst h).symm,
              by rw [huid]; exact (congrArg Prod.snd h).symm⟩)
          · exact Or.inl h
          · exfalso
            apply hne
            obtain ⟨p1, p2⟩ := p
            simp only at h3 h4
            rw [← h3, ← h4]
          · exact Or.inr (Or.inr h)
        · rintro (h | ⟨_, _, h3, h4⟩ | h)
          · exact Or.inr ⟨fun hc => hL1 p h (by rw [hc]), Or.inl h⟩
          · refine Or.inl ?_
            obtain ⟨p1, p2⟩ := p
            simp only at h3 h4
            rw [← h3, ← huid, h4]
          · exact Or.inr ⟨fun hc => hL2 p h (by rw [hc]), Or.inr (Or.inr h)⟩

theorem deleteIndexStep_rebuild (l1 l2 : List Record) (ex m : Record) (f : String)
    (hl1 : ∀ r ∈ l1, idOf r ≠ idOf ex) (hl2 : ∀ r ∈ l2, idOf r ≠ idOf ex)
    (hmdel : isDeleted m = true) :
    deleteIndexStep f ex (idOf ex) (rebuildRel (l1 ++ ex :: l2) f)
      = rebuildRel (l1 ++ m :: l2) f := by
  have hL1 := rebuildRel_snd_ne l1 f (idOf ex) hl1
  have hL2 := rebuildRel_snd_ne l2 f (idOf ex) hl2
  unfold deleteIndexStep
  by_cases hex : getField ex f = .undefined
  · rw [if_pos hex]
    apply Finset.ext
    intro p
    rw [mem_rebuildRel_middle, mem_rebuildRel_middle]
    constructor
    · rintro (h | ⟨_, h2, _, _⟩ | h)
      · exact Or.inl h
      · exact absurd hex h2
      · exact Or.inr (Or.inr h)
    · rintro (h | ⟨h1, _, _, _⟩ | h)
      · exact Or.inl h
      · rw [hmdel] at h1; cases h1
      · exact Or.inr (Or.inr h)
  · rw [if_neg hex]
    apply Finset.ext
    intro p
    rw [Finset.mem_erase, mem_rebuildRel_middle, mem_rebuildRel_middle]
    constructor
    · rintro ⟨hne, h | ⟨_, _, h3, h4⟩ | h⟩
      · exact Or.inl h
      · exfalso
        apply hne
        obtain ⟨p1, p2⟩ := p
        simp only at h3 h4
        rw [← h3, ← h4]
      · exact Or.inr (Or.inr h)
    · rintro (h | ⟨h1, _, _, _⟩ | h)
      · exact ⟨fun hc => hL1 p h (by rw [hc]), Or.inl h⟩
      · rw [hmdel] at h1; cases h1
      · exact ⟨fun hc => hL2 p h (by rw [hc]), Or.inr (Or.inr h)⟩

theorem jsonGet_none_frame (s : JState) (id : Value)
    (h : (jsonGet s id).1 = none) : (jsonGet s id).2 = s := by
  unfold jsonGet getFromCache at h ⊢
  cases hl : mapLookup s.cache id with
  | some item => rw [hl] at h; cases h
  | none =>
    cases hs : liveLookup s.data id with
    | some record => simp [hl, hs] at h
    | none => simp [hl, hs]

theorem jsonInsert_spec (s : JState) (p : Record)
    (ht : truthy (getField p "id") = true) :
    jsonInsert s p =
      (setField (setField p "_created" (.str (toString s.clock))) "_updated"
        (.str (toString s.clock)),
       { s with
         clock := s.clock + 1,
         data := s.data ++ [setField (setField p "_created" (.str (toString s.clock)))
           "_updated" (.str (toString s.clock))],
         indexes := s.indexes.map (fun fi =>
           (fi.1, insertIndexStep fi.1 (setField (setField p "_created"
             (.str (toString s.clock))) "_updated" (.str (toString s.clock))) fi.2)),
         dataFile := some (s.data ++ [setField (setField p "_created"
           (.str (toString s.clock))) "_updated" (.str (toString s.clock))]),
         walFile := s.walFile ++ [.ins (setField (setField p "_created"
           (.str (toString s.clock))) "_updated" (.str (toString s.clock)))],
         cache := setToCache s.cacheSize s.cache
           (getField (setField (setField p "_created" (.str (toString s.clock)))
             "_updated" (.str (toString s.clock))) "id")
           (setField (setField p "_created" (.str (toString s.clock))) "_updated"
             (.str (toString s.clock))) }) := by
  unfold jsonInsert jsonInsertWal stampForInsert JState.nowISO
  simp [ht, writeToWAL, saveData]

theorem jsonUpdate_spec (s : JState) (id : Value) (p : Record) (existing : Record)
    (s1 : JState) (hg : jsonGet s id = (some existing, s1)) :
    jsonUpdate s id p =
      (.ok (setField (mergeRecords existing p) "_updated" (.str (toString s1.clock))),
       { s1 with
         clock := s1.clock + 1,
         data := replaceFirstById s1.data id
           (setField (mergeRecords existing p) "_updated" (.str (toString s1.clock))),
         indexes := s1.indexes.map (fun fi =>
           (fi.1, updateIndexStep fi.1 existing
             (setField (mergeRecords existing p) "_updated" (.str (toString s1.clock)))
             id fi.2)),
         dataFile := some (replaceFirstById s1.data id
           (setField (mergeRecords existing p) "_updated" (.str (toString s1.clock)))),
         walFile := s1.walFile ++ [.upd (setField (mergeRecords existing p) "_updated"
           (.str (toString s1.clock)))],
         cache := setToCache s1.cacheSize s1.cache id
           (setField (mergeRecords existing p) "_updated"
             (.str (toString s1.clock))) }) := by
  unfold jsonUpdate jsonUpdateWal JState.nowISO
  rw [hg]
  simp [writeToWAL, saveData]

theorem jsonDelete_spec2 (s : JState) (id : Value) (existing : Record)
    (s1 : JState) (hg : jsonGet s id = (some existing, s1)) :
    jsonDelete s id =
      (.ok true,
       { s1 with
         clock := s1.clock + 1,
         data := replaceFirstById s1.data id
           (setField (setField existing "_deleted" (.bool true)) "_deleted_at"
             (.str (toString s1.clock))),
         indexes := s1.indexes.map (fun fi =>
           (fi.1, deleteIndexStep fi.1 existing id fi.2)),
         dataFile := some (replaceFirstById s1.data id
           (setField (setField existing "_deleted" (.bool true)) "_deleted_at"
             (.str (toString s1.clock)))),
         walFile := s1.walFile ++ [.del [("id", id)]],
         cache := mapDelete s1.cache id }) := by
  unfold jsonDelete jsonDeleteWal JState.nowISO
  rw [hg]
  simp [writeToWAL, saveData]

theorem keys_mapDelete_nodup (c : List (Value × Record)) (id : Value)
    (h : (c.map Prod.fst).Nodup) : ((mapDelete c id).map Prod.fst).Nodup := by
  unfold mapDelete
  exact (List.Sublist.map Prod.fst (List.filter_sublist c)).nodup h

theorem keys_promote_nodup (c : List (Value × Record)) (id : Value) (item : Record)
    (h : (c.map Prod.fst).Nodup) :
    (((mapDelete c id ++ [(id, item)]).map Prod.fst)).Nodup := by
  rw [List.map_append]
  rw [List.nodup_append]
  refine ⟨keys_mapDelete_nodup c id h, by simp, ?_⟩
  intro k hk
  have := (mem_mapDelete c id _ (List.mem_map.mp hk).choose_spec.1).2
  simp only [List.map_cons, List.map_nil, List.mem_singleton]
  obtain ⟨q, hq, rfl⟩ := List.mem_map.mp hk
  exact (mem_mapDelete c id q hq).2

theorem keys_mapSet_nodup (c : List (Value × Record)) (id : Value) (r : Record)
    (h : (c.map Prod.fst).Nodup) : ((mapSet c id r).map Prod.fst).Nodup := by
  induction c with
  | nil => simp [mapSet]
  | cons a as ih =>
    rw [List.map_cons, List.nodup_cons] at h
    by_cases ha : a.1 = id
    · simp only [mapSet, ha, if_pos, List.map_cons, List.nodup_cons]
      exact ⟨by rw [← ha]; exact h.1, h.2⟩
    · simp only [mapSet]
      rw [if_neg ha, List.map_cons, List.nodup_cons]
      refine ⟨?_, ih h.2⟩
      intro hc
      rcases List.mem_map.mp hc with ⟨q, hq, hq1⟩
      rcases mem_mapSet as id r q hq with he | he
      · rw [he] at hq1
        exact ha hq1.symm
      · exact h.1 (hq1 ▸ List.mem_map_of_mem _ he)

theorem keys_setToCache_nodup (n : Nat) (c : Cache) (id : Value) (r : Record)
    (h : (c.map Prod.fst).Nodup) :
    ((setToCache n c id r).map Prod.fst).Nodup := by
  unfold setToCache
  apply keys_mapSet_nodup
  by_cases hlen : c.length ≥ n
  · simp only [hlen, if_pos]
    exact (List.Sublist.map Prod.fst (List.drop_sublist 1 c)).nodup h
  · simp only [hlen, if_neg]
    exact h

theorem mem_mapSet_key_nodup (c : List (Value × Record)) (id : Value) (r : Record)
    (q : Value × Record) (hnd : (c.map Prod.fst).Nodup) (h : q ∈ mapSet c id r) :
    q = (id, r) ∨ (q ∈ c ∧ q.1 ≠ id) := by
  induction c with
  | nil => exact Or.inl (by simpa [mapSet] using h)
  | cons a as ih =>
    rw [List.map_cons, List.nodup_cons] at hnd
    by_cases ha : a.1 = id
    · simp only [mapSet, ha, if_pos] at h
      rcases List.mem_cons.mp h with h | h
      · exact Or.inl h
      · refine Or.inr ⟨List.mem_cons_of_mem a h, ?_⟩
        intro hc
        exact hnd.1 (by rw [← ha] at hc; exact hc ▸ List.mem_map_of_mem _ h)
    · simp only [mapSet, ha, if_neg, Bool.false_eq_true] at h
      rcases List.mem_cons.mp h with h | h
      · exact Or.inr ⟨h ▸ List.mem_cons_self a as, by rw [h]; exact ha⟩
      · rcases ih hnd.2 h with he | he
        · exact Or.inl he
        · exact Or.inr ⟨List.mem_cons_of_mem a he.1, he.2⟩

theorem mem_setToCache_key_nodup (n : Nat) (c : Cache) (id : Value) (r : Record)
    (q : Value × Record) (hnd : (c.map Prod.fst).Nodup) (h : q ∈ setToCache n c id r) :
    q = (id, r) ∨ (q ∈ c ∧ q.1 ≠ id) := by
  unfold setToCache at h
  by_cases hlen : c.length ≥ n
  · simp only [hlen, if_pos] at h
    rcases mem_mapSet_key_nodup (c.drop 1) id r q
      ((List.Sublist.map Prod.fst (List.drop_sublist 1 c)).nodup hnd) h with he | he
    · exact Or.inl he
    · exact Or.inr ⟨List.mem_of_mem_drop he.1, he.2⟩
  · simp only [hlen, if_neg] at h
    exact mem_mapSet_key_nodup c id r q hnd h

theorem liveLookup_append_or (l1 l2 : List Record) (id : Value) :
    liveLookup (l1 ++ l2) id = (liveLookup l1 id).or (liveLookup l2 id) := by
  unfold liveLookup
  exact List.find?_append

theorem liveLookup_middle_live (l1 l2 : List Record) (m : Record) (id : Value)
    (h1 : ∀ r ∈ l1, stricteq (idOf r) id = false)
    (hm : stricteq (idOf m) id = true) (hlive : isDeleted m = false) :
    liveLookup (l1 ++ m :: l2) id = some m := by
  rw [liveLookup_append_or]
  have hnone : liveLookup l1 id = none :=
    liveLookup_eq_none l1 id (fun r hr => Or.inl (h1 r hr))
  rw [hnone, Option.none_or]
  unfold liveLookup
  simp [List.find?, hm, hlive]

theorem liveLookup_middle_congr (l1 l2 : List Record) (m m' : Record) (k : Value)
    (hm : stricteq (idOf m) k = false) (hm' : stricteq (idOf m') k = false) :
    liveLookup (l1 ++ m :: l2) k = liveLookup (l1 ++ m' :: l2) k := by
  rw [liveLookup_append_or, liveLookup_append_or]
  congr 1
  unfold liveLookup
  simp [List.find?, hm, hm']

theorem stricteq_refl_of_isStr (a : Value) (ha : isStr a = true) :
    stricteq a a = true := by
  cases a <;> simp [isStr] at ha ⊢
  simp [stricteq]

theorem getField_undef_of_wfKeys (p : Record) (k : String)
    (hk : underscored k = true) (hp : wfPayloadKeys p = true) :
    getField p k = .undefined := by
  unfold wfPayloadKeys at hp
  induction p with
  | nil => rfl
  | cons a as ih =>
    rw [getField_cons]
    have ha := List.all_eq_true.mp hp a (List.mem_cons_self a as)
    by_cases hak : a.1 = k
    · exfalso
      rw [hak] at ha
      simp [hk] at ha
    · rw [if_neg hak]
      exact ih (List.all_eq_true.mpr
        (fun kv hkv => List.all_eq_true.mp hp kv (List.mem_cons_of_mem a hkv)))

theorem getField_merge_wfKeys (a p : Record) (k : String)
    (hk : underscored k = true) (hp : wfPayloadKeys p = true) :
    getField (mergeRecords a p) k = getField a k := by
  apply getField_mergeRecords_not_key
  intro kv hkv hc
  have hh := List.all_eq_true.mp (by unfold wfPayloadKeys at hp; exact hp) kv hkv
  rw [hc] at hh
  simp [hk] at hh

theorem insertStamped_id (p : Record) (t : Value) :
    idOf (setField (setField p "_created" t) "_updated" t) = getField p "id" := by
  unfold idOf
  rw [getField_setField_ne _ _ _ _ (by decide), getField_setField_ne _ _ _ _ (by decide)]

theorem insertStamped_notdel (p : Record) (t : Value) (hp : wfPayloadKeys p = true) :
    isDeleted (setField (setField p "_created" t) "_updated" t) = false := by
  unfold isDeleted
  rw [getField_setField_ne _ _ _ _ (by decide), getField_setField_ne _ _ _ _ (by decide),
    getField_undef_of_wfKeys p "_deleted" (by decide) hp]
  rfl

theorem updated_id (ex p : Record) (t : Value) (hid : ∀ kv ∈ p, kv.1 ≠ "id") :
    idOf (setField (mergeRecords ex p) "_updated" t) = idOf ex := by
  unfold idOf
  rw [getField_setField_ne _ _ _ _ (by decide)]
  exact getField_mergeRecords_not_key ex p "id" hid

theorem updated_notdel (ex p : Record) (t : Value) (hp : wfPayloadKeys p = true)
    (hexlive : isDeleted ex = false) :
    isDeleted (setField (mergeRecords ex p) "_updated" t) = false := by
  unfold isDeleted
  rw [getField_setField_ne _ _ _ _ (by decide),
    getField_merge_wfKeys ex p "_deleted" (by decide) hp]
  exact hexlive

theorem inv_get (s : JState) (id : Value) (h : Inv s) : Inv (jsonGet s id).2 := by
  obtain ⟨c, hc⟩ := jsonGet_snd_cacheOnly s id
  have hcoh' := jsonGet_coh s id h.coh
  have hnd' : ((jsonGet s id).2.cache.map Prod.fst).Nodup := by
    unfold jsonGet getFromCache
    cases hl : mapLookup s.cache id with
    | some item => simpa using keys_promote_nodup s.cache id item h.cacheNd
    | none =>
      cases hs : liveLookup s.data id with
      | some record =>
        simpa [hs] using keys_setToCache_nodup s.cacheSize s.cache id record h.cacheNd
      | none => simpa [hs] using h.cacheNd
  exact ⟨hc ▸ h.strIds, hc ▸ h.nd, hcoh', hc ▸ h.idx, hnd'⟩

theorem inv_createIndex (s : JState) (f : String) (h : Inv s) :
    Inv (jsonCreateIndex s f) := by
  unfold jsonCreateIndex jsonRebuildIndex
  by_cases hf : s.indexes.any (fun fi => fi.1 = f) = true
  · rw [if_pos hf]
    exact h
  · rw [if_neg hf]
    refine ⟨h.strIds, h.nd, h.coh, ?_, h.cacheNd⟩
    intro fi hfi
    simp only at hfi
    obtain ⟨fi0, hfi0, rfl⟩ := List.mem_map.mp hfi
    by_cases hfi0f : fi0.1 = f
    · rw [if_pos hfi0f]
    · rw [if_neg hfi0f]
      rcases List.mem_append.mp hfi0 with hm | hm
      · exact h.idx fi0 hm
      · exfalso
        exact hfi0f (congrArg Prod.fst (List.mem_singleton.mp hm))

theorem inv_dropIndex (s : JState) (f : String) (h : Inv s) :
    Inv (jsonDropIndex s f) := by
  refine ⟨h.strIds, h.nd, h.coh, ?_, h.cacheNd⟩
  intro fi hfi
  exact h.idx fi (List.mem_of_mem_filter hfi)

theorem inv_compact (s : JState) (h : Inv s) : Inv (jsonCompact s).2 := by
  unfold jsonCompact
  refine ⟨?_, ?_, ?_, ?_, ?_⟩
  · intro r hr
    simp only at hr
    obtain ⟨r0, hr0, rfl⟩ := List.mem_map.mp hr
    rw [idOf_stripCompact]
    exact h.strIds r0 (List.mem_of_mem_filter hr0)
  · simp only
    rw [List.map_map]
    have he : idOf ∘ stripCompact = idOf := by
      funext r
      exact idOf_stripCompact r
    rw [he]
    exact ((List.filter_sublist s.data).map idOf).nodup h.nd
  · intro p hp
    simp only at hp
    exact absurd hp (List.not_mem_nil p)
  · intro fi hfi
    simp only at hfi ⊢
    obtain ⟨fi0, hfi0, rfl⟩ := List.mem_map.mp hfi
    rfl
  · simp

theorem inv_restore (s : JState) (content : List Record)
    (hstr : ∀ r ∈ content, isStr (idOf r) = true)
    (hnd : (content.map idOf).Nodup) :
    Inv (jsonRestore s (some content)).2 := by
  unfold jsonRestore saveData
  refine ⟨hstr, hnd, ?_, ?_, ?_⟩
  · intro p hp
    simp only at hp
    exact absurd hp (List.not_mem_nil p)
  · intro fi hfi
    simp only at hfi ⊢
    obtain ⟨fi0, hfi0, rfl⟩ := List.mem_map.mp hfi
    rfl
  · simp


theorem inv_insert (s : JState) (p : Record) (h : Inv s)
    (hwf : wfOp s (.opInsert p) = true) : Inv (jsonInsert s p).2 := by
  have hw := hwf
  unfold wfOp at hw
  simp only [Bool.and_eq_true] at hw
  obtain ⟨⟨⟨hkeys, ht⟩, hstr⟩, hfresh⟩ := hw
  rw [jsonInsert_spec s p ht]
  have hdid : idOf (setField (setField p "_created" (.str (toString s.clock)))
      "_updated" (.str (toString s.clock))) = getField p "id" :=
    insertStamped_id p _
  have hdlive : isDeleted (setField (setField p "_created" (.str (toString s.clock)))
      "_updated" (.str (toString s.clock))) = false :=
    insertStamped_notdel p _ hkeys
  have hdid2 : getField (setField (setField p "_created" (.str (toString s.clock)))
      "_updated" (.str (toString s.clock))) "id" = getField p "id" :=
    insertStamped_id p _
  have hfresh' : ∀ r ∈ s.data, stricteq (idOf r) (getField p "id") = false := by
    intro r hr
    have hh := List.all_eq_true.mp hfresh r hr
    cases hv : stricteq (idOf r) (getField p "id")
    · rfl
    · rw [hv] at hh
      cases hh
  have hfreshne : ∀ r ∈ s.data, idOf r ≠ getField p "id" := by
    intro r hr hc
    have := hfresh' r hr
    rw [hc, stricteq_refl_of_isStr _ hstr] at this
    cases this
  refine ⟨?_, ?_, ?_, ?_, ?_⟩
  · intro r hr
    simp only at hr
    rcases List.mem_append.mp hr with hm | hm
    · exact h.strIds r hm
    · rw [List.mem_singleton.mp hm, hdid]
      exact hstr
  · simp only
    rw [List.map_append, List.map_singleton, hdid]
    rw [List.nodup_append]
    refine ⟨h.nd, by simp, ?_⟩
    intro k hk
    obtain ⟨r, hr, rfl⟩ := List.mem_map.mp hk
    simp only [List.mem_singleton]
    exact hfreshne r hr
  · intro q hq
    simp only at hq ⊢
    rcases mem_setToCache_key_nodup _ _ _ _ q h.cacheNd hq with he | ⟨hin, hne⟩
    · rw [he]
      simp only
      rw [liveLookup_append_or]
      have hnone : liveLookup s.data (getField (setField (setField p "_created"
          (.str (toString s.clock))) "_updated" (.str (toString s.clock))) "id")
          = none := by
        apply liveLookup_eq_none
        intro r hr
        rw [hdid2]
        exact Or.inl (hfresh' r hr)
      rw [hnone, Option.none_or]
      unfold liveLookup
      rw [List.find?]
      rw [show (stricteq (idOf (setField (setField p "_created"
          (.str (toString s.clock))) "_updated" (.str (toString s.clock))))
          (getField (setField (setField p "_created" (.str (toString s.clock)))
            "_updated" (.str (toString s.clock))) "id") && !isDeleted (setField
            (setField p "_created" (.str (toString s.clock))) "_updated"
            (.str (toString s.clock)))) = true by
        rw [hdid, hdid2, hdlive, stricteq_refl_of_isStr _ hstr]
        rfl]
    · have hold := h.coh q hin
      rw [liveLookup_append_or, hold]
      rfl
  · intro fi hfi
    simp only at hfi ⊢
    obtain ⟨fi0, hfi0, rfl⟩ := List.mem_map.mp hfi
    simp only
    rw [h.idx fi0 hfi0]
    exact insertIndexStep_rebuild s.data _ fi0.1 hdlive
  · exact keys_setToCache_nodup _ _ _ _ h.cacheNd

theorem stricteq_false_of_ne (a b : Value) (ha : isStr a = true) (hne : b ≠ a) :
    stricteq a b = false := by
  cases hv : stricteq a b
  · rfl
  · exact absurd ((isStr_stricteq_eq _ _ ha).mp hv) hne

theorem inv_update (s : JState) (id : Value) (p : Record) (h : Inv s)
    (hwf : wfOp s (.opUpdate id p) = true) : Inv (jsonUpdate s id p).2 := by
  have hw := hwf
  unfold wfOp at hw
  simp only [Bool.and_eq_true] at hw
  obtain ⟨hkeys, hid⟩ := hw
  have hpne : ∀ kv ∈ p, kv.1 ≠ "id" := by
    intro kv hkv
    have := List.all_eq_true.mp hid kv hkv
    simpa using this
  rcases hg : jsonGet s id with ⟨res, s1⟩
  cases res with
  | none =>
    have hfst : (jsonGet s id).1 = none := by rw [hg]
    have hfr := jsonGet_none_frame s id hfst
    rw [hg] at hfr
    have hfr2 : s1 = s := hfr
    have heq : jsonUpdate s id p = (.error "Record not found", s1) := by
      unfold jsonUpdate jsonUpdateWal
      rw [hg]
    rw [heq]
    show Inv s1
    rw [hfr2]
    exact h
  | some existing =>
    obtain ⟨c, hc⟩ := jsonGet_snd_cacheOnly s id
    rw [hg] at hc
    have hc2 : s1 = { s with cache := c } := hc
    have hs1data : s1.data = s.data := by rw [hc2]
    have hs1idx : s1.indexes = s.indexes := by rw [hc2]
    have hInv1 : Inv s1 := by
      have h2 := inv_get s id h
      rw [hg] at h2
      exact h2
    have hfst : (jsonGet s id).1 = some existing := by rw [hg]
    have hL : liveLookup s.data id = some existing := by
      rw [← jsonGet_fst s id h.coh]
      exact hfst
    obtain ⟨hexmem, hstricteq, hexlive⟩ := liveLookup_some _ _ _ hL
    have hidstr : isStr (idOf existing) = true := h.strIds existing hexmem
    have hexid : id = idOf existing := (isStr_stricteq_eq _ _ hidstr).mp hstricteq
    rw [jsonUpdate_spec s id p existing s1 hg]
    have huid : idOf (setField (mergeRecords existing p) "_updated"
        (.str (toString s1.clock))) = idOf existing := updated_id existing p _ hpne
    have hulive : isDeleted (setField (mergeRecords existing p) "_updated"
        (.str (toString s1.clock))) = false := updated_notdel existing p _ hkeys hexlive
    obtain ⟨l1, l2, hsplit, hrep, hl1, hl2⟩ :=
      replaceFirst_decomp s.data id
        (setField (mergeRecords existing p) "_updated" (.str (toString s1.clock)))
        existing h.nd h.strIds hL
    have hl1ne : ∀ r ∈ l1, idOf r ≠ idOf existing := by
      intro r hr hc'
      have hcontr := hl1 r hr
      rw [hc', ← hexid, stricteq_refl_of_isStr id (by rw [hexid]; exact hidstr)] at hcontr
      cases hcontr
    have hl2ne : ∀ r ∈ l2, idOf r ≠ idOf existing := by
      intro r hr hc'
      have hcontr := hl2 r hr
      rw [hc', ← hexid, stricteq_refl_of_isStr id (by rw [hexid]; exact hidstr)] at hcontr
      cases hcontr
    have hmem_l1 : ∀ r ∈ l1, r ∈ s.data := by
      intro r hr
      rw [hsplit]
      exact List.mem_append_left _ hr
    have hmem_l2 : ∀ r ∈ l2, r ∈ s.data := by
      intro r hr
      rw [hsplit]
      exact List.mem_append_right _ (List.mem_cons_of_mem _ hr)
    refine ⟨?_, ?_, ?_, ?_, ?_⟩
    · intro r hr
      simp only at hr
      rw [hs1data, hrep] at hr
      rcases List.mem_append.mp hr with hm | hm
      · exact h.strIds r (hmem_l1 r hm)
      · rcases List.mem_cons.mp hm with hm | hm
        · rw [hm, huid]
          exact hidstr
        · exact h.strIds r (hmem_l2 r hm)
    · simp only
      rw [hs1data, hrep]
      have hmapeq : (l1 ++ setField (mergeRecords existing p) "_updated"
          (.str (toString s1.clock)) :: l2).map idOf = s.data.map idOf := by
        rw [hsplit]
        simp [huid]
      rw [hmapeq]
      exact h.nd
    · intro q hq
      simp only at hq ⊢
      rw [hs1data, hrep]
      rcases mem_setToCache_key_nodup _ _ _ _ q hInv1.cacheNd hq with he | ⟨hin, hne⟩
      · rw [he]
        simp only
        apply liveLookup_middle_live l1 l2 _ id hl1
        · rw [huid]
          exact hstricteq
        · exact hulive
      · have hold := hInv1.coh q hin
        rw [hs1data, hsplit] at hold
        have hne1 : stricteq (idOf existing) q.1 = false :=
          stricteq_false_of_ne _ _ hidstr
            (fun hc' => hne (hc'.trans hexid.symm))
        have hne2 : stricteq (idOf (setField (mergeRecords existing p) "_updated"
            (.str (toString s1.clock)))) q.1 = false := by
          rw [huid]
          exact hne1
        rw [← liveLookup_middle_congr l1 l2 existing _ q.1 hne1 hne2]
        exact hold
    · intro fi hfi
      simp only at hfi ⊢
      obtain ⟨fi0, hfi0, rfl⟩ := List.mem_map.mp hfi
      simp only
      rw [hs1idx] at hfi0
      rw [h.idx fi0 hfi0, hs1data, hrep, hsplit, hexid]
      exact updateIndexStep_rebuild l1 l2 existing _ fi0.1 hexlive hulive huid hl1ne hl2ne
    · exact keys_setToCache_nodup _ _ _ _ hInv1.cacheNd

theorem inv_delete (s : JState) (id : Value) (h : Inv s) :
    Inv (jsonDelete s id).2 := by
  rcases hg : jsonGet s id with ⟨res, s1⟩
  cases res with
  | none =>
    have hfst : (jsonGet s id).1 = none := by rw [hg]
    have hfr := jsonGet_none_frame s id hfst
    rw [hg] at hfr
    have hfr2 : s1 = s := hfr
    have heq : jsonDelete s id = (.error "Record not found", s1) := by
      unfold jsonDelete jsonDeleteWal
      rw [hg]
    rw [heq]
    show Inv s1
    rw [hfr2]
    exact h
  | some existing =>
    obtain ⟨c, hc⟩ := jsonGet_snd_cacheOnly s id
    rw [hg] at hc
    have hc2 : s1 = { s with cache := c } := hc
    have hs1data : s1.data = s.data := by rw [hc2]
    have hs1idx : s1.indexes = s.indexes := by rw [hc2]
    have hInv1 : Inv s1 := by
      have h2 := inv_get s id h
      rw [hg] at h2
      exact h2
    have hfst : (jsonGet s id).1 = some existing := by rw [hg]
    have hL : liveLookup s.data id = some existing := by
      rw [← jsonGet_fst s id h.coh]
      exact hfst
    obtain ⟨hexmem, hstricteq, hexlive⟩ := liveLookup_some _ _ _ hL
    have hidstr : isStr (idOf existing) = true := h.strIds existing hexmem
    have hexid : id = idOf existing := (isStr_stricteq_eq _ _ hidstr).mp hstricteq
    rw [jsonDelete_spec2 s id existing s1 hg]
    have hmid : idOf (setField (setField existing "_deleted" (.bool true))
        "_deleted_at" (.str (toString s1.clock))) = idOf existing :=
      idOf_marked existing _
    have hmdel : isDeleted (setField (setField existing "_deleted" (.bool true))
        "_deleted_at" (.str (toString s1.clock))) = true :=
      isDeleted_marked existing _
    obtain ⟨l1, l2, hsplit, hrep, hl1, hl2⟩ :=
      replaceFirst_decomp s.data id
        (setField (setField existing "_deleted" (.bool true)) "_deleted_at"
          (.str (toString s1.clock)))
        existing h.nd h.strIds hL
    have hl1ne : ∀ r ∈ l1, idOf r ≠ idOf existing := by
      intro r hr hc'
      have hcontr := hl1 r hr
      rw [hc', ← hexid, stricteq_refl_of_isStr id (by rw [hexid]; exact hidstr)] at hcontr
      cases hcontr
    have hl2ne : ∀ r ∈ l2, idOf r ≠ idOf existing := by
      intro r hr hc'
      have hcontr := hl2 r hr
      rw [hc', ← hexid, stricteq_refl_of_isStr id (by rw [hexid]; exact hidstr)] at hcontr
      cases hcontr
    have hmem_l1 : ∀ r ∈ l1, r ∈ s.data := by
      intro r hr
      rw [hsplit]
      exact List.mem_append_left _ hr
    have hmem_l2 : ∀ r ∈ l2, r ∈ s.data := by
      intro r hr
      rw [hsplit]
      exact List.mem_append_right _ (List.mem_cons_of_mem _ hr)
    refine ⟨?_, ?_, ?_, ?_, ?_⟩
    · intro r hr
      simp only at hr
      rw [hs1data, hrep] at hr
      rcases List.mem_append.mp hr with hm | hm
      · exact h.strIds r (hmem_l1 r hm)
      · rcases List.mem_cons.mp hm with hm | hm
        · rw [hm, hmid]
          exact hidstr
        · exact h.strIds r (hmem_l2 r hm)
    · simp only
      rw [hs1data, hrep]
      have hmapeq : (l1 ++ setField (setField existing "_deleted" (.bool true))
          "_deleted_at" (.str (toString s1.clock)) :: l2).map idOf
          = s.data.map idOf := by
        rw [hsplit]
        simp [hmid]
      rw [hmapeq]
      exact h.nd
    · intro q hq
      simp only at hq ⊢
      rw [hs1data, hrep]
      obtain ⟨hin, hne⟩ := mem_mapDelete _ _ _ hq
      have hold := hInv1.coh q hin
      rw [hs1data, hsplit] at hold
      have hne1 : stricteq (idOf existing) q.1 = false :=
        stricteq_false_of_ne _ _ hidstr (fun hc' => hne (hc'.trans hexid.symm))
      have hne2 : stricteq (idOf (setField (setField existing "_deleted" (.bool true))
          "_deleted_at" (.str (toString s1.clock)))) q.1 = false := by
        rw [hmid]
        exact hne1
      rw [← liveLookup_middle_congr l1 l2 existing _ q.1 hne1 hne2]
      exact hold
    · intro fi hfi
      simp only at hfi ⊢
      obtain ⟨fi0, hfi0, rfl⟩ := List.mem_map.mp hfi
      simp only
      rw [hs1idx] at hfi0
      rw [h.idx fi0 hfi0, hs1data, hrep, hsplit, hexid]
      exact deleteIndexStep_rebuild l1 l2 existing _ fi0.1 hl1ne hl2ne hmdel
    · exact keys_mapDelete_nodup _ _ hInv1.cacheNd

/-! ## Counterexamples for the corrected claims -/

/-- Claim C2's concrete scenario fails on the code: `$in` tests whether
the **whole** field value is a member of the given array
(`val.includes(item[field])`), and the array `["a","b"]` is never
`===`-equal to the strings `"b"`/`"c"`, so the record does **not** match
`{age: {$gte: 18, $lt: 65}, tags: {$in: ["b","c"]}}` on either engine. -/
theorem c2_spec_scenario_does_not_match :
    jsonFind [recAge] qFull = [] ∧ memFind [(.str "r", recAge)] qFull = [] := by
  constructor <;> decide

/-- Claim C3 fails as stated: after `createIndex("f")` and an insert whose
payload carries `_deleted: true`, the incrementally maintained index holds
`(1, "a")` (insert's index loop has no tombstone check) while a rebuild
from the current non-deleted records is empty. -/
theorem c3_insert_with_tombstone_desyncs_index :
    (runOps freshJState c3ops).indexes = [("f", {(.num 1, .str "a")})] ∧
    rebuildRel (runOps freshJState c3ops).data "f" = ∅ := by
  constructor <;> decide

/-- Claim C5 fails as stated: `update` merges `{...existing, ...data}`, so
a payload that itself contains `id` rebinds it — updating record `"a"`
with `{id: "b"}` yields a stored record whose id is `"b"`. -/
theorem c5_update_payload_overwrites_id :
    (jsonUpdate jAfterA (.str "a") [("id", .str "b")]).1.toOption.map idOf
      = some (.str "b") ∧
    ((jsonUpdate jAfterA (.str "a") [("id", .str "b")]).2.data.map idOf
      = [.str "b"]) := by
  constructor <;> decide

/-- Claim C8's protection clause fails at capacity 1: `"a"` is cached and
promoted by a hit, yet the very next `set` of the distinct id `"b"`
evicts it. -/
theorem c8_capacity_one_evicts_freshly_touched_entry :
    (getFromCache c8small (.str "a")).1 = some [("v", .num 1)] ∧
    mapLookup
      (setToCache 1 (getFromCache c8small (.str "a")).2 (.str "b") [("v", .num 2)])
      (.str "a") = none := by
  constructor <;> decide

/-- Claim C9 fails as stated for the memory engine: `backup` strips
`_created`/`_updated` and `restore` re-stamps them with fresh `nowISO()`
values, so the restored live record differs from the one that existed at
backup time (`_created` `"0"` versus `"2"`). -/
theorem c9_memory_restore_restamps_timestamps :
    liveRecords (mAfterA.data.map Prod.snd) =
      [[("id", .str "a"), ("x", .num 1),
        ("_created", .str "0"), ("_updated", .str "0")]] ∧
    liveRecords (c9restored.data.map Prod.snd) =
      [[("id", .str "a"), ("x", .num 1),
        ("_created", .str "2"), ("_updated", .str "2")]] ∧
    liveRecords (c9restored.data.map Prod.snd) ≠
      liveRecords (mAfterA.data.map Prod.snd) := by
  refine ⟨by decide, by decide, by decide⟩

/-- Claim C10 fails as stated: after updating record `"a"` with the
payload `{id: "b"}`, the cache still keys the updated record under
`"a"`, an id that no longer names any live record. -/
theorem c10_update_id_payload_leaves_stale_cache_key :
    ¬ cacheCoherent (runOps freshJState c10ops) := by
  unfold cacheCoherent
  decide

/-! ## The invariant along whole well-formed trajectories -/

theorem inv_fresh : Inv freshJState := by
  constructor <;> simp [freshJState]

theorem inv_runOp (s : JState) (o : Op) (h : Inv s) (hwf : wfOp s o = true) :
    Inv (runOp s o) := by
  cases o with
  | opInsert p => exact inv_insert s p h hwf
  | opUpdate id p => exact inv_update s id p h hwf
  | opDelete id => exact inv_delete s id h
  | opGet id => exact inv_get s id h
  | opCreateIndex f => exact inv_createIndex s f h
  | opDropIndex f => exact inv_dropIndex s f h
  | opCompact => exact inv_compact s h
  | opRestore c =>
    unfold wfOp at hwf
    simp only [Bool.and_eq_true] at hwf
    obtain ⟨h1, h2⟩ := hwf
    exact inv_restore s c
      (fun r hr => by simpa using List.all_eq_true.mp h1 r hr)
      (of_decide_eq_true h2)

theorem inv_runOps (ops : List Op) :
    ∀ s : JState, Inv s → wfSeq s ops = true → Inv (runOps s ops) := by
  induction ops with
  | nil =>
    intro s h _
    exact h
  | cons o rest ih =>
    intro s h hwf
    unfold wfSeq at hwf
    simp only [Bool.and_eq_true] at hwf
    exact ih (runOp s o) (inv_runOp s o h hwf.1) hwf.2

/-- **C3 (amended).**  Along every sequence of calls that is well formed
in the data-model sense — each insert payload carries an explicit fresh
truthy string `id` and no underscore key, each update payload contains
neither `id` nor an underscore key, and each restore's content carries
pairwise-distinct string ids — the incremental index maintenance of
`insert`, `update` and `delete` keeps every registered index identical to
the index `rebuildIndexes` would build from scratch over the current
record array (tombstones contributing nothing).  Without the
well-formedness proviso the claim is false:
`c3_insert_with_tombstone_desyncs_index` re-inserts a tombstoned id and
desynchronizes the index, because the insert index step skips the
tombstone check that `rebuildIndex` performs. -/
theorem c3_index_consistency_amended (ops : List Op)
    (hwf : wfSeq freshJState ops = true) :
    ∀ fi ∈ (runOps freshJState ops).indexes,
      fi.2 = rebuildRel (runOps freshJState ops).data fi.1 :=
  (inv_runOps ops freshJState inv_fresh hwf).idx

theorem c3_index_consistency_witness :
    wfSeq freshJState wfFixtureOps = true ∧
      ∀ fi ∈ (runOps freshJState wfFixtureOps).indexes,
        fi.2 = rebuildRel (runOps freshJState wfFixtureOps).data fi.1 :=
  ⟨by decide, c3_index_consistency_amended wfFixtureOps (by decide)⟩

/-- **C10 (amended).**  Along every well-formed sequence of calls (in the
sense of `wfSeq`: insert payloads carry explicit fresh truthy string ids
and no underscore keys, update payloads contain neither `id` nor
underscore keys, restore content carries distinct string ids), every
cache entry maps an id to exactly the current live record bearing that
id.  Without the proviso the claim is false:
`c10_update_id_payload_leaves_stale_cache_key` rebinds a record's id
through an update payload and leaves the cache keyed by the old id. -/
theorem c10_cache_coherence_amended (ops : List Op)
    (hwf : wfSeq freshJState ops = true) :
    cacheCoherent (runOps freshJState ops) :=
  (inv_runOps ops freshJState inv_fresh hwf).coh

theorem c10_cache_coherence_witness :
    wfSeq freshJState wfFixtureOps = true ∧
      cacheCoherent (runOps freshJState wfFixtureOps) :=
  ⟨by decide, c10_cache_coherence_amended wfFixtureOps (by decide)⟩

end Oran
